import Mathlib

/-!
# ZeroFlow: a shallow embedding of `include/ZeroFlow.hpp`

The header defines `State<T>` (a host reference plus a member-function
pointer) and the CRTP engine `StateMachine<Derived>` with four private
fields and the public operations `setInitialState`, `transitionTo`, `wait`,
`waitCondition` and `update`.

Embedding choices.

* A `const State<Derived>*` is an identifier of type `σ`; the null pointer is
  `none`.  What `State::invoke` runs is looked up in the host class
  (`Derived.method`).
* The fields a host class adds to the engine (a clock reference, a start
  time, a log, ...) form the type `H`.
* The engine fields are private, so a behaviour can act on the engine only
  through the public operations, none of which hands back information.  A
  behaviour that does not call `update` re-entrantly is therefore a function
  from the host fields to new host fields and the sequence of engine calls it
  makes (`Call`).
* `unsigned long` durations are natural numbers; the engine stores and
  passes them on and does no arithmetic with them.
* Two ghost lists record what an execution does: `invoked` gets the state of
  every `currentState->invoke()`, `asked` gets the argument of every
  `waitCondition` call made by `update`.
-/

namespace zeroflow

/-- The four private fields of `StateMachine<Derived>` with their default
member initialisers. -/
structure StateMachine (σ : Type) where
  currentState : Option σ := none
  nextState : Option σ := none
  waitTime : Nat := 0
  waiting : Bool := false
  deriving DecidableEq, Repr

namespace StateMachine

variable {σ : Type}

/-- `setInitialState`: `if (!currentState) currentState = &state;`. -/
def setInitialState (m : StateMachine σ) (state : σ) : StateMachine σ :=
  match m.currentState with
  | none => { m with currentState := some state }
  | some _ => m

/-- `transitionTo`: `nextState = &state;` (the returned reference is the
object itself). -/
def transitionTo (m : StateMachine σ) (state : σ) : StateMachine σ :=
  { m with nextState := some state }

/-- `wait`: `waitTime = ms; waiting = true;`. -/
def wait (m : StateMachine σ) (ms : Nat) : StateMachine σ :=
  { m with waitTime := ms, waiting := true }

end StateMachine

/-- A call of a public engine operation made from inside a behaviour. -/
inductive Call (σ : Type) where
  | setInitialState (state : σ)
  | transitionTo (state : σ)
  | wait (ms : Nat)
  deriving DecidableEq, Repr

/-- Effect of one call on the engine fields. -/
def Call.run {σ : Type} (m : StateMachine σ) : Call σ → StateMachine σ
  | Call.setInitialState s => m.setInitialState s
  | Call.transitionTo s => m.transitionTo s
  | Call.wait ms => m.wait ms

/-- Effect of the calls of one behaviour, in program order. -/
def runCalls {σ : Type} (cs : List (Call σ)) (m : StateMachine σ) : StateMachine σ :=
  cs.foldl Call.run m

/-- The host class: the member function each state is bound to, and the
`waitCondition` the engine reaches through the CRTP downcast. -/
structure Derived (σ H : Type) where
  method : σ → H → H × List (Call σ)
  waitCondition : H → Nat → Bool

/-- The default `waitCondition` of the engine: `return false;`. -/
def defaultWaitCondition {H : Type} (_h : H) (_ms : Nat) : Bool := false

/-- A host object at run time: the engine fields, the host fields and the
two ghost lists. -/
structure Instance (σ H : Type) where
  fsm : StateMachine σ
  host : H
  invoked : List σ := []
  asked : List Nat := []
  deriving DecidableEq, Repr

variable {σ H : Type}

/-- `State::invoke` on the state `s`: run the bound member function. -/
def invoke (d : Derived σ H) (s : σ) (c : Instance σ H) : Instance σ H :=
  { c with
    fsm := runCalls (d.method s c.host).2 c.fsm
    host := (d.method s c.host).1
    invoked := c.invoked ++ [s] }

/-- Step 2 of `update`: `if (nextState) { currentState = nextState;
nextState = nullptr; }`. -/
def applyPending (m : StateMachine σ) : StateMachine σ :=
  match m.nextState with
  | some n => { m with currentState := some n, nextState := none }
  | none => m

/-- Step 3 of `update`: `if (currentState) currentState->invoke();`. -/
def invokeCurrent (d : Derived σ H) (c : Instance σ H) : Instance σ H :=
  match c.fsm.currentState with
  | some s => invoke d s c
  | none => c

/-- `update`: poll the wait condition when waiting (returning at once when
it holds), apply the pending transition, invoke the current state. -/
def update (d : Derived σ H) (c : Instance σ H) : Instance σ H :=
  if c.fsm.waiting then
    let c1 := { c with asked := c.asked ++ [c.fsm.waitTime] }
    if d.waitCondition c.host c.fsm.waitTime then
      c1
    else
      let c2 := { c1 with fsm := { c1.fsm with waiting := false } }
      invokeCurrent d { c2 with fsm := applyPending c2.fsm }
  else
    invokeCurrent d { c with fsm := applyPending c.fsm }

/-- `n` consecutive `update()` calls. -/
def updateN (d : Derived σ H) : Nat → Instance σ H → Instance σ H
  | 0, c => c
  | n + 1, c => updateN d n (update d c)

/-- A polling loop in which the surroundings act on the host fields (a
clock is advanced, say) before each `update()`. -/
def pollAll (d : Derived σ H) : List (H → H) → Instance σ H → Instance σ H
  | [], c => c
  | env :: envs, c => pollAll d envs (update d { c with host := env c.host })

/-- The state a non-frozen `update()` invokes: `nextState` when it is set,
otherwise `currentState`. -/
def target (m : StateMachine σ) : Option σ :=
  match m.nextState with
  | some n => some n
  | none => m.currentState

/-- Whether `update()` returns at step 1. -/
def frozen (d : Derived σ H) (c : Instance σ H) : Bool :=
  c.fsm.waiting && d.waitCondition c.host c.fsm.waitTime

/-- The target of the last `transitionTo` among the calls, if any. -/
def lastTarget : List (Call σ) → Option σ
  | [] => none
  | Call.transitionTo s :: cs => (lastTarget cs).orElse (fun _ => some s)
  | _ :: cs => lastTarget cs

/-- The duration of the last `wait` among the calls, if any. -/
def lastWait : List (Call σ) → Option Nat
  | [] => none
  | Call.wait ms :: cs => (lastWait cs).orElse (fun _ => some ms)
  | _ :: cs => lastWait cs

/-- Every state the engine holds or has invoked satisfies `P`. -/
def StatesIn (P : σ → Prop) (c : Instance σ H) : Prop :=
  (∀ s, c.fsm.currentState = some s → P s)
    ∧ (∀ s, c.fsm.nextState = some s → P s)
    ∧ ∀ s ∈ c.invoked, P s

/-- The host fields each `update()` of `pollAll` finds while the engine
stays frozen: a frozen `update()` leaves them as the surroundings set them. -/
def hostsSeen : List (H → H) → H → List H
  | [], _ => []
  | env :: envs, h => env h :: hostsSeen envs (env h)

/-! ## Hosts of `tests/test_fsm.cpp` -/

/-- The two `State` members `s1`, `s2` of the two-state test hosts. -/
inductive Two where
  | s1
  | s2
  deriving DecidableEq, Repr

/-- The three `State` members `s1`, `s2`, `s3` of `test_rapid_fire`. -/
inductive Three where
  | s1
  | s2
  | s3
  deriving DecidableEq, Repr

/-- The host of `test_default_wait`; the host field is `log`. -/
def defaultWaitFSM : Derived Two (List Char) where
  method
    | Two.s1, log => (log ++ ['1'], [Call.transitionTo Two.s2])
    | Two.s2, log => (log ++ ['2'], [Call.transitionTo Two.s1])
  waitCondition := fun _ _ => false

/-- The host of `test_zero_delay`. -/
def zeroDelayFSM : Derived Two (List Char) where
  method
    | Two.s1, log => (log ++ ['X'], [Call.transitionTo Two.s2, Call.wait 0])
    | Two.s2, log => (log ++ ['Y'], [])
  waitCondition := fun _ _ => false

/-- The host of `test_double_set_initial`. -/
def doubleSetFSM : Derived Two (List Char) where
  method
    | Two.s1, log => (log ++ ['1'], [])
    | Two.s2, log => (log ++ ['2'], [])
  waitCondition := fun _ _ => false

/-- The host of `test_rapid_fire`. -/
def rapidFireFSM : Derived Three (List Char) where
  method
    | Three.s1, log => (log ++ ['1'], [Call.transitionTo Three.s2, Call.transitionTo Three.s3])
    | Three.s2, log => (log ++ ['2'], [])
    | Three.s3, log => (log ++ ['3'], [])
  waitCondition := fun _ _ => false

/-- Host fields of `test_timed_wait`: the reading of the `FakeClock` it
refers to, `start` and `log`. -/
structure TimedFields where
  clk : Nat
  start : Nat
  log : List Char
  deriving DecidableEq, Repr

/-- `FakeClock::advance`: `t += ms` on a 64-bit `unsigned long`. -/
def TimedFields.advance (ms : Nat) (h : TimedFields) : TimedFields :=
  { h with clk := (h.clk + ms) % 2 ^ 64 }

/-- The host of `test_timed_wait`; `clk.now() - start` is an unsigned
64-bit subtraction. -/
def timedWaitFSM : Derived Two TimedFields where
  method
    | Two.s1, h =>
      ({ h with log := h.log ++ ['A'], start := h.clk }, [Call.transitionTo Two.s2, Call.wait 100])
    | Two.s2, h =>
      ({ h with log := h.log ++ ['B'] }, [Call.transitionTo Two.s1, Call.wait 100])
  waitCondition := fun h ms => decide ((h.clk + 2 ^ 64 - h.start) % 2 ^ 64 < ms)

/-- A freshly constructed host whose constructor has called
`setInitialState(s)`. -/
def started (s : σ) (h : H) : Instance σ H :=
  { fsm := ({} : StateMachine σ).setInitialState s, host := h }

/-! ## The host of `tests/size_demo.cpp` -/

/-- The class `TwoState` of `size_demo.cpp`; the host field is `counter`.
Its `waitCondition` has the body of the engine's default one. -/
def twoStateFSM : Derived Two Int where
  method
    | Two.s1, counter => (counter + 1, [Call.transitionTo Two.s2, Call.wait 0])
    | Two.s2, counter => (counter - 1, [Call.transitionTo Two.s1, Call.wait 0])
  waitCondition := fun _ _ => false

/-! ## Two host objects -/

/-- Two host objects side by side.  `world` is everything their behaviours
can reach: the fields of both hosts and whatever they share (a common log,
a clock).  Each engine has its own four fields and its own ghost lists. -/
structure Pair (σA σB W : Type) where
  fsmA : StateMachine σA
  fsmB : StateMachine σB
  world : W
  invokedA : List σA := []
  invokedB : List σB := []
  askedA : List Nat := []
  askedB : List Nat := []
  deriving DecidableEq, Repr

/-- `a.update()` for the first object of the pair. -/
def updateA {σA σB W : Type} (dA : Derived σA W) (p : Pair σA σB W) : Pair σA σB W :=
  { p with
    fsmA := (update dA
      { fsm := p.fsmA, host := p.world, invoked := p.invokedA, asked := p.askedA }).fsm
    world := (update dA
      { fsm := p.fsmA, host := p.world, invoked := p.invokedA, asked := p.askedA }).host
    invokedA := (update dA
      { fsm := p.fsmA, host := p.world, invoked := p.invokedA, asked := p.askedA }).invoked
    askedA := (update dA
      { fsm := p.fsmA, host := p.world, invoked := p.invokedA, asked := p.askedA }).asked }

/-- `b.update()` for the second object of the pair. -/
def updateB {σA σB W : Type} (dB : Derived σB W) (p : Pair σA σB W) : Pair σA σB W :=
  { p with
    fsmB := (update dB
      { fsm := p.fsmB, host := p.world, invoked := p.invokedB, asked := p.askedB }).fsm
    world := (update dB
      { fsm := p.fsmB, host := p.world, invoked := p.invokedB, asked := p.askedB }).host
    invokedB := (update dB
      { fsm := p.fsmB, host := p.world, invoked := p.invokedB, asked := p.askedB }).invoked
    askedB := (update dB
      { fsm := p.fsmB, host := p.world, invoked := p.invokedB, asked := p.askedB }).asked }

/-- An interleaving of `update()` calls: `true` polls the first object,
`false` the second. -/
def interleave {σA σB W : Type} (dA : Derived σA W) (dB : Derived σB W) :
    List Bool → Pair σA σB W → Pair σA σB W
  | [], p => p
  | true :: bs, p => interleave dA dB bs (updateA dA p)
  | false :: bs, p => interleave dA dB bs (updateB dB p)

/-- The host `dW`, which acts on the world, reads and writes of it only its
own part `view`, on which it is the host `dOwn`. -/
def Confined {σ W HO : Type} (view : W → HO) (dW : Derived σ W) (dOwn : Derived σ HO) : Prop :=
  (∀ s w, view (dW.method s w).1 = (dOwn.method s (view w)).1
      ∧ (dW.method s w).2 = (dOwn.method s (view w)).2)
    ∧ ∀ w ms, dW.waitCondition w ms = dOwn.waitCondition (view w) ms

/-- The behaviours of `dW` leave the part `view` of the world as it is. -/
def Preserves {σ W HO : Type} (view : W → HO) (dW : Derived σ W) : Prop :=
  ∀ s w, view (dW.method s w).1 = view w

/-- A host object seen through `view`. -/
def mapHost {σ W HO : Type} (view : W → HO) (c : Instance σ W) : Instance σ HO :=
  { fsm := c.fsm, host := view c.host, invoked := c.invoked, asked := c.asked }

/-- The two `State` members `s3`, `s4` of `FSM2` in
`test_interleaving_default`. -/
inductive TwoB where
  | s3
  | s4
  deriving DecidableEq, Repr

/-- The host `FSM1` of `test_interleaving_default`; the world is the
`history` both hosts log to. -/
def interleavingFSM1 : Derived Two (List Char) where
  method
    | Two.s1, log => (log ++ ['1'], [Call.transitionTo Two.s2])
    | Two.s2, log => (log ++ ['2'], [Call.transitionTo Two.s1])
  waitCondition := fun _ _ => false

/-- The host `FSM2` of `test_interleaving_default`. -/
def interleavingFSM2 : Derived TwoB (List Char) where
  method
    | TwoB.s3, log => (log ++ ['3'], [Call.transitionTo TwoB.s4])
    | TwoB.s4, log => (log ++ ['4'], [Call.transitionTo TwoB.s3])
  waitCondition := fun _ _ => false

/-- The host `FSM1` without the shared log: it has no field of its own. -/
def ownFSM1 : Derived Two Unit where
  method
    | Two.s1, _ => ((), [Call.transitionTo Two.s2])
    | Two.s2, _ => ((), [Call.transitionTo Two.s1])
  waitCondition := fun _ _ => false

/-- The host `FSM2` without the shared log. -/
def ownFSM2 : Derived TwoB Unit where
  method
    | TwoB.s3, _ => ((), [Call.transitionTo TwoB.s4])
    | TwoB.s4, _ => ((), [Call.transitionTo TwoB.s3])
  waitCondition := fun _ _ => false

/-! ## The host of `test_overflow` -/

/-- The `State` member `s1` of `test_overflow`, and the member `self` of
`test_fuzzing`: the only state of a single-state host. -/
inductive One where
  | s1
  deriving DecidableEq, Repr

/-- `static_cast<long long>` of a 64-bit `unsigned long`: readings from
`2^63` on become negative. -/
def toSigned (x : Nat) : Int :=
  if x % 2 ^ 64 < 2 ^ 63 then ((x % 2 ^ 64 : Nat) : Int) else ((x % 2 ^ 64 : Nat) : Int) - 2 ^ 64

/-- Subtraction of two `long long` values, wrapped into the 64-bit signed
range as the machine does it. -/
def subSigned (a b : Int) : Int :=
  (a - b + 2 ^ 63) % 2 ^ 64 - 2 ^ 63

/-- The host of `test_overflow`, with the fields `clk`, `start` and `log` of
`TimedFields`: its wait condition compares as `long long`. -/
def overflowFSM : Derived One TimedFields where
  method
    | One.s1, h =>
      ({ h with log := h.log ++ ['O'], start := h.clk }, [Call.transitionTo One.s1, Call.wait 10])
  waitCondition := fun h ms =>
    decide (subSigned (toSigned h.clk) (toSigned h.start) < toSigned ms)

/-! ## The periodic hosts of `tests/test_fsm.cpp` -/

/-- Host fields of a periodic host that logs (`test_three_state`, `BlinkTest`
of `test_three_blink`): the reading `clk` of the `FakeClock` it refers to, the
reading `t0` kept by the last behaviour (`start`, `t0`), the number `count`
of entries it has pushed to its log (a `std::vector`, so not a machine
integer), and the ghost list `stamps` of the clock readings at which its
behaviours ran. -/
structure Timer where
  clk : Nat
  t0 : Nat
  count : Nat := 0
  stamps : List Nat := []
  deriving DecidableEq, Repr

/-- `FakeClock::advance`: `t += ms` on a 64-bit `unsigned long`. -/
def Timer.advance (ms : Nat) (h : Timer) : Timer :=
  { h with clk := (h.clk + ms) % 2 ^ 64 }

/-- The unsigned 64-bit difference `clk.now() - t0`. -/
def Timer.elapsed (h : Timer) : Nat :=
  (h.clk + 2 ^ 64 - h.t0) % 2 ^ 64

/-- A periodic host with interval `T`: every behaviour logs, keeps the
clock reading and calls `transitionTo(next).wait(T)`; the wait condition is
`(clk.now() - t0) < ms`.  `BlinkTest` has `low` and `high`, each naming the
other; `test_three_state` has the cycle `Three.next` and `T = 10`. -/
def periodicFSM {σ : Type} (next : σ → σ) (T : Nat) : Derived σ Timer where
  method := fun s h =>
    ({ h with t0 := h.clk, count := h.count + 1, stamps := h.stamps ++ [h.clk] },
      [Call.transitionTo (next s), Call.wait T])
  waitCondition := fun h ms => decide (h.elapsed < ms)

/-- The engine fields a periodic host leaves after the behaviour of `s`. -/
def cycling {σ : Type} (next : σ → σ) (T : Nat) (s : σ) : StateMachine σ :=
  { currentState := some s, nextState := some (next s), waitTime := T, waiting := true }

/-- The loop of `test_three_blink`: `update()`, then the surroundings act
(`clk.advance(100)`), `n` times. -/
def updateThen (d : Derived σ H) (after : H → H) : Nat → Instance σ H → Instance σ H
  | 0, c => c
  | n + 1, c => updateThen d after n { update d c with host := after (update d c).host }

/-- Consecutive readings are at least `T` apart. -/
def Spaced (T : Nat) : List Nat → Prop
  | a :: b :: l => a + T ≤ b ∧ Spaced T (b :: l)
  | _ => True

/-- The cycle `s1 → s2 → s3 → s1` of `test_three_state`. -/
def Three.next : Three → Three
  | Three.s1 => Three.s2
  | Three.s2 => Three.s3
  | Three.s3 => Three.s1

/-- The other state of a two-state host. -/
def Two.other : Two → Two
  | Two.s1 => Two.s2
  | Two.s2 => Two.s1

/-- The variables `t`, `nextA` and the number of `push_back` calls of the loop
that builds `expected` in `test_three_blink`, for one blinker. -/
structure Reference where
  t : Nat := 0
  nextX : Nat := 0
  pushes : Nat := 0
  deriving DecidableEq, Repr

/-- One step of that loop: `if (t >= nextA) { push; nextA += T; } t += d;`
on 64-bit `unsigned long`. -/
def Reference.step (T d : Nat) (r : Reference) : Reference :=
  if r.nextX ≤ r.t then
    { t := (r.t + d) % 2 ^ 64, nextX := (r.nextX + T) % 2 ^ 64, pushes := r.pushes + 1 }
  else
    { r with t := (r.t + d) % 2 ^ 64 }

/-- The reference loop after `n` steps. -/
def Reference.run (T d : Nat) : Nat → Reference
  | 0 => {}
  | n + 1 => (Reference.run T d n).step T d

/-! ## The host of `test_fuzzing` -/

/-- A value brought into the range of a 32-bit `int`, as the machine wraps
`++toggles`. -/
def wrapInt32 (x : Int) : Int :=
  (x + 2 ^ 31) % 2 ^ 32 - 2 ^ 31

/-- Host fields of the `FSM` of `test_fuzzing`: the reading `clk` of the
`FakeClock` it refers to, `last`, the 32-bit `int toggles`, and the ghost list
`stamps` of the clock readings at which `run` ran. -/
structure FuzzFields where
  clk : Nat
  last : Nat
  toggles : Int := 0
  stamps : List Nat := []
  deriving DecidableEq, Repr

/-- `FakeClock::advance`: `t += ms` on a 64-bit `unsigned long`. -/
def FuzzFields.advance (ms : Nat) (h : FuzzFields) : FuzzFields :=
  { h with clk := (h.clk + ms) % 2 ^ 64 }

/-- The `FSM` of `test_fuzzing` with interval `T` (500 in the test): `run`
does `++toggles; last = clk.now(); transitionTo(self).wait(T);` and the wait
condition is the unsigned 64-bit comparison `(clk.now() - last) < ms`. -/
def fuzzingFSM (T : Nat) : Derived One FuzzFields where
  method := fun _ h =>
    ({ h with toggles := wrapInt32 (h.toggles + 1), last := h.clk,
              stamps := h.stamps ++ [h.clk] },
      [Call.transitionTo One.s1, Call.wait T])
  waitCondition := fun h ms => decide ((h.clk + 2 ^ 64 - h.last) % 2 ^ 64 < ms)

/-- The body of `test_fuzzing` for the increments `ds`: the host is
constructed with `last = 0`, `toggles = 0` on a clock at 0, and each
increment is followed by one `update()`. -/
def fuzzingRun (T : Nat) (ds : List Nat) : Instance One FuzzFields :=
  pollAll (fuzzingFSM T) (ds.map FuzzFields.advance) (started One.s1 { clk := 0, last := 0 })

/-- The fields of `test_fuzzing` seen as those of a periodic host, with the
number of readings taken in the place of the log length. -/
def FuzzFields.timer (h : FuzzFields) : Timer :=
  { clk := h.clk, t0 := h.last, count := h.stamps.length, stamps := h.stamps }

end zeroflow

namespace zeroflow

variable {σ H : Type}

/-! ## The calls of a behaviour -/

theorem runCalls_nil (m : StateMachine σ) : runCalls [] m = m := rfl

theorem runCalls_cons (c : Call σ) (cs : List (Call σ)) (m : StateMachine σ) :
    runCalls (c :: cs) m = runCalls cs (c.run m) := rfl

theorem run_currentState_of_some (c : Call σ) (m : StateMachine σ) (s : σ)
    (h : m.currentState = some s) : (c.run m).currentState = some s := by
  cases c <;> simp [Call.run, StateMachine.setInitialState, StateMachine.transitionTo,
    StateMachine.wait, h]

/-- A behaviour cannot change `currentState` once it is set: the only
operation that writes it outside `update` is `setInitialState`, which is then
a no-op. -/
theorem runCalls_currentState_of_some (cs : List (Call σ)) (m : StateMachine σ) (s : σ)
    (h : m.currentState = some s) : (runCalls cs m).currentState = some s := by
  induction cs generalizing m with
  | nil => simpa using h
  | cons c cs ih => exact ih (c.run m) (run_currentState_of_some c m s h)

/-- After the calls of a behaviour, `nextState` is the target of its last
`transitionTo`, or what it was when the behaviour made none. -/
theorem runCalls_nextState (cs : List (Call σ)) (m : StateMachine σ) :
    (runCalls cs m).nextState = (lastTarget cs).orElse (fun _ => m.nextState) := by
  induction cs generalizing m with
  | nil => simp [runCalls, lastTarget]
  | cons c cs ih =>
    rw [runCalls_cons, ih]
    cases c with
    | setInitialState s =>
      simp only [lastTarget, Call.run, StateMachine.setInitialState]
      cases m.currentState <;> rfl
    | transitionTo s =>
      simp only [lastTarget, Call.run, StateMachine.transitionTo]
      cases lastTarget cs <;> rfl
    | wait ms => simp [lastTarget, Call.run, StateMachine.wait]

/-- After the calls of a behaviour, `waitTime` is the duration of its last
`wait`, and `waiting` is set when it made one. -/
theorem runCalls_waitTime (cs : List (Call σ)) (m : StateMachine σ) :
    (runCalls cs m).waitTime = (lastWait cs).getD m.waitTime
      ∧ (runCalls cs m).waiting = (m.waiting || (lastWait cs).isSome) := by
  induction cs generalizing m with
  | nil => simp [runCalls, lastWait]
  | cons c cs ih =>
    rw [runCalls_cons]
    obtain ⟨h1, h2⟩ := ih (c.run m)
    rw [h1, h2]
    cases c with
    | setInitialState s =>
      simp only [lastWait, Call.run, StateMachine.setInitialState]
      cases m.currentState <;> exact ⟨rfl, rfl⟩
    | transitionTo s => exact ⟨rfl, rfl⟩
    | wait ms =>
      simp only [lastWait, Call.run, StateMachine.wait]
      cases lastWait cs <;> simp [Option.orElse]

theorem runCalls_append (cs cs2 : List (Call σ)) (m : StateMachine σ) :
    runCalls (cs ++ cs2) m = runCalls cs2 (runCalls cs m) := by
  simp [runCalls, List.foldl_append]

/-! ## One `update()` -/

theorem invoke_invoked (d : Derived σ H) (s : σ) (c : Instance σ H) :
    (invoke d s c).invoked = c.invoked ++ [s] := rfl

theorem invoke_asked (d : Derived σ H) (s : σ) (c : Instance σ H) :
    (invoke d s c).asked = c.asked := rfl

theorem invoke_currentState (d : Derived σ H) (s : σ) (c : Instance σ H)
    (h : c.fsm.currentState = some s) : (invoke d s c).fsm.currentState = some s :=
  runCalls_currentState_of_some _ _ _ h

theorem applyPending_eq (m : StateMachine σ) :
    applyPending m =
      { currentState := target m, nextState := none, waitTime := m.waitTime,
        waiting := m.waiting } := by
  unfold applyPending target
  cases m with
  | mk cur nxt wt w => cases nxt <;> cases cur <;> rfl

theorem invokeCurrent_invoked (d : Derived σ H) (c : Instance σ H) :
    (invokeCurrent d c).invoked = c.invoked ++ c.fsm.currentState.toList := by
  unfold invokeCurrent
  cases h : c.fsm.currentState <;> simp [invoke_invoked]

theorem invokeCurrent_asked (d : Derived σ H) (c : Instance σ H) :
    (invokeCurrent d c).asked = c.asked := by
  unfold invokeCurrent
  cases h : c.fsm.currentState <;> simp [invoke_asked]

theorem invokeCurrent_currentState (d : Derived σ H) (c : Instance σ H) :
    (invokeCurrent d c).fsm.currentState = c.fsm.currentState := by
  unfold invokeCurrent
  cases h : c.fsm.currentState with
  | none => simp [h]
  | some s => simpa using invoke_currentState d s c h

/-- An `update()` that finds the wait condition true returns at step 1. -/
theorem update_of_frozen (d : Derived σ H) (c : Instance σ H) (h : frozen d c = true) :
    update d c = { c with asked := c.asked ++ [c.fsm.waitTime] } := by
  unfold frozen at h
  simp only [Bool.and_eq_true] at h
  simp [update, h.1, h.2]

/-- An `update()` that is not stopped at step 1 invokes the target on the
engine in which the pending transition has been applied. -/
theorem update_of_not_frozen (d : Derived σ H) (c : Instance σ H) (h : frozen d c = false) :
    update d c =
      invokeCurrent d
        { c with
          fsm := { currentState := target c.fsm, nextState := none,
                   waitTime := c.fsm.waitTime, waiting := false }
          asked := if c.fsm.waiting then c.asked ++ [c.fsm.waitTime] else c.asked } := by
  unfold frozen at h
  cases hw : c.fsm.waiting with
  | false => simp [update, hw, applyPending_eq]
  | true =>
    rw [hw, Bool.true_and] at h
    simp [update, hw, h, applyPending_eq, target]

/-- A non-frozen `update()` with target `s` invokes `s`, leaves it current
and leaves pending the target of the last `transitionTo` of its behaviour. -/
theorem update_of_target (d : Derived σ H) (c : Instance σ H) (s : σ)
    (hf : frozen d c = false) (hs : target c.fsm = some s) :
    (update d c).invoked = c.invoked ++ [s]
      ∧ (update d c).fsm.currentState = some s
      ∧ (update d c).fsm.nextState = lastTarget (d.method s c.host).2 := by
  have hu := update_of_not_frozen d c hf
  rw [hs] at hu
  have hi : update d c = invoke d s
      { c with
        fsm := { currentState := some s, nextState := none,
                 waitTime := c.fsm.waitTime, waiting := false }
        asked := if c.fsm.waiting then c.asked ++ [c.fsm.waitTime] else c.asked } := by
    rw [hu]; rfl
  refine ⟨?_, ?_, ?_⟩
  · rw [hi]; rfl
  · rw [hi]; exact invoke_currentState d s _ rfl
  · rw [hi]
    show (runCalls _ _).nextState = _
    rw [runCalls_nextState]
    cases lastTarget (d.method s c.host).2 <;> rfl

/-! ## Leaving the waiting sub-state -/

/-- C1: when `waiting` is set and `waitCondition(waitTime)` returns false, one
`update()` asks the wait condition once, clears `waiting`, moves `nextState`
into `currentState` when it is set (keeping `currentState` otherwise) and
invokes the resulting current state once in that same call: the ghost list
`invoked` grows by exactly that state, and by nothing when both pointers are
null.  With `nextState = X` (as after `transitionTo(X).wait(0)`) the call
invokes `X`. -/
theorem update_exits_waiting (d : Derived σ H) (c : Instance σ H)
    (hw : c.fsm.waiting = true) (hc : d.waitCondition c.host c.fsm.waitTime = false) :
    (∀ X, c.fsm.nextState = some X →
        update d c =
          invoke d X
            { c with
              fsm := { currentState := some X, nextState := none,
                       waitTime := c.fsm.waitTime, waiting := false }
              asked := c.asked ++ [c.fsm.waitTime] }
        ∧ (update d c).invoked = c.invoked ++ [X]
        ∧ (update d c).fsm.currentState = some X)
      ∧ (c.fsm.nextState = none → ∀ s, c.fsm.currentState = some s →
        update d c =
          invoke d s
            { c with
              fsm := { currentState := some s, nextState := none,
                       waitTime := c.fsm.waitTime, waiting := false }
              asked := c.asked ++ [c.fsm.waitTime] }
        ∧ (update d c).invoked = c.invoked ++ [s]
        ∧ (update d c).fsm.currentState = some s)
      ∧ (c.fsm.nextState = none → c.fsm.currentState = none →
        update d c =
          { c with
            fsm := { currentState := none, nextState := none,
                     waitTime := c.fsm.waitTime, waiting := false }
            asked := c.asked ++ [c.fsm.waitTime] })
      ∧ (update d c).invoked = c.invoked ++ (target c.fsm).toList
      ∧ (update d c).asked = c.asked ++ [c.fsm.waitTime] := by
  have hf : frozen d c = false := by simp [frozen, hc]
  have hu := update_of_not_frozen d c hf
  simp only [hw, if_true] at hu
  refine ⟨?_, ?_, ?_, ?_, ?_⟩
  · intro X hX
    have ht : target c.fsm = some X := by simp [target, hX]
    rw [ht] at hu
    have hi : update d c = invoke d X
        { c with
          fsm := { currentState := some X, nextState := none,
                   waitTime := c.fsm.waitTime, waiting := false }
          asked := c.asked ++ [c.fsm.waitTime] } := by
      rw [hu]; rfl
    refine ⟨hi, ?_, ?_⟩
    · rw [hi]; rfl
    · rw [hi]; exact invoke_currentState d X _ rfl
  · intro hn s hs
    have ht : target c.fsm = some s := by simp [target, hn, hs]
    rw [ht] at hu
    have hi : update d c = invoke d s
        { c with
          fsm := { currentState := some s, nextState := none,
                   waitTime := c.fsm.waitTime, waiting := false }
          asked := c.asked ++ [c.fsm.waitTime] } := by
      rw [hu]; rfl
    refine ⟨hi, ?_, ?_⟩
    · rw [hi]; rfl
    · rw [hi]; exact invoke_currentState d s _ rfl
  · intro hn hs
    have ht : target c.fsm = none := by simp [target, hn, hs]
    rw [ht] at hu
    rw [hu]; rfl
  · rw [hu, invokeCurrent_invoked]
  · rw [hu, invokeCurrent_asked]

/-- C1 on the host of `test_zero_delay`: the first `update()` invokes `s1`,
which calls `transitionTo(s2).wait(0)`; the second one invokes `s2`. -/
theorem update_exits_waiting_witness :
    (update zeroDelayFSM (started Two.s1 [])).fsm
        = ((({} : StateMachine Two).setInitialState Two.s1).transitionTo Two.s2).wait 0
      ∧ (update zeroDelayFSM (update zeroDelayFSM (started Two.s1 []))).invoked
        = [Two.s1, Two.s2] :=
  ⟨rfl,
    ((update_exits_waiting zeroDelayFSM (update zeroDelayFSM (started Two.s1 []))
        rfl rfl).1 Two.s2 rfl).2.1⟩

/-! ## Staying in the waiting sub-state -/

theorem updateN_of_frozen (d : Derived σ H) (n : Nat) (c : Instance σ H)
    (h : frozen d c = true) :
    updateN d n c = { c with asked := c.asked ++ List.replicate n c.fsm.waitTime } := by
  induction n generalizing c with
  | zero => simp [updateN]
  | succ n ih =>
    rw [updateN, update_of_frozen d c h, ih _ (by simpa [frozen] using h)]
    simp [List.replicate_succ]

theorem pollAll_of_frozen (d : Derived σ H) (envs : List (H → H)) (c : Instance σ H)
    (hw : c.fsm.waiting = true)
    (hs : ∀ h ∈ hostsSeen envs c.host, d.waitCondition h c.fsm.waitTime = true) :
    (pollAll d envs c).fsm = c.fsm ∧ (pollAll d envs c).invoked = c.invoked
      ∧ (pollAll d envs c).asked = c.asked ++ List.replicate envs.length c.fsm.waitTime := by
  induction envs generalizing c with
  | nil => simp [pollAll]
  | cons env envs ih =>
    have h1 : frozen d { c with host := env c.host } = true := by
      simp [frozen, hw, hs (env c.host) (by simp [hostsSeen])]
    rw [pollAll, update_of_frozen d _ h1]
    have := ih { c with host := env c.host, asked := c.asked ++ [c.fsm.waitTime] } hw
      (fun h hh => hs h (by simp [hostsSeen]; exact Or.inr hh))
    simpa [List.replicate_succ] using this

/-- C2: when `waiting` is set and `waitCondition(waitTime)` returns true,
`update()` invokes nothing and leaves `currentState`, `nextState`, `waitTime`
and `waiting` (and the host fields) as they were; it only asks the wait
condition.  The same holds for any number of consecutive updates, and for a
polling loop in which the surroundings change the host fields between
updates, as long as `waitCondition(waitTime)` is true at every update. -/
theorem update_while_waiting (d : Derived σ H) (c : Instance σ H)
    (hw : c.fsm.waiting = true) (hc : d.waitCondition c.host c.fsm.waitTime = true) :
    (update d c).fsm = c.fsm ∧ (update d c).host = c.host
      ∧ (update d c).invoked = c.invoked
      ∧ (update d c).asked = c.asked ++ [c.fsm.waitTime]
      ∧ (∀ n, (updateN d n c).fsm = c.fsm ∧ (updateN d n c).host = c.host
          ∧ (updateN d n c).invoked = c.invoked)
      ∧ (∀ envs : List (H → H),
          (∀ h ∈ hostsSeen envs c.host, d.waitCondition h c.fsm.waitTime = true) →
          (pollAll d envs c).fsm = c.fsm ∧ (pollAll d envs c).invoked = c.invoked) := by
  have hf : frozen d c = true := by simp [frozen, hw, hc]
  refine ⟨?_, ?_, ?_, ?_, ?_, ?_⟩
  · rw [update_of_frozen d c hf]
  · rw [update_of_frozen d c hf]
  · rw [update_of_frozen d c hf]
  · rw [update_of_frozen d c hf]
  · intro n
    rw [updateN_of_frozen d n c hf]
    exact ⟨rfl, rfl, rfl⟩
  · intro envs hs
    exact ⟨(pollAll_of_frozen d envs c hw hs).1, (pollAll_of_frozen d envs c hw hs).2.1⟩

/-- C2 on the host of `test_timed_wait`: `S1` runs at clock 0 and calls
`transitionTo(s2).wait(100)`; at clock 50 the wait condition holds and the
`update()` invokes nothing. -/
theorem update_while_waiting_witness :
    (update timedWaitFSM (started Two.s1 { clk := 0, start := 0, log := [] })).fsm
        = { currentState := some Two.s1, nextState := some Two.s2, waitTime := 100,
            waiting := true }
      ∧ (update timedWaitFSM
          { fsm := { currentState := some Two.s1, nextState := some Two.s2, waitTime := 100,
                     waiting := true }
            host := { clk := 50, start := 0, log := ['A'] }
            invoked := [Two.s1] }).invoked = [Two.s1] :=
  ⟨rfl,
    (update_while_waiting timedWaitFSM
      { fsm := { currentState := some Two.s1, nextState := some Two.s2, waitTime := 100,
                 waiting := true }
        host := { clk := 50, start := 0, log := ['A'] }
        invoked := [Two.s1] } rfl (by decide)).2.2.1⟩

/-! ## One invocation per update -/

/-- C3: one `update()` performs at most one invocation, and the state it
invokes is fixed by the engine fields before the call: `nextState` when it is
set, otherwise `currentState` (`target`).  The calls made by the invoked
behaviour do not add an invocation; when the update returns, `currentState`
is the invoked state and `nextState` is the target of the last `transitionTo`
the behaviour made (null when it made none). -/
theorem update_invokes_at_most_once (d : Derived σ H) (c : Instance σ H) :
    ((update d c).invoked = c.invoked
        ∨ ∃ s, target c.fsm = some s ∧ (update d c).invoked = c.invoked ++ [s])
      ∧ (update d c).invoked.length ≤ c.invoked.length + 1
      ∧ (frozen d c = true → (update d c).invoked = c.invoked)
      ∧ (frozen d c = false → ∀ s, target c.fsm = some s →
          (update d c).invoked = c.invoked ++ [s]
          ∧ (update d c).fsm.currentState = some s
          ∧ (update d c).fsm.nextState = lastTarget (d.method s c.host).2
          ∧ ∀ Y, lastTarget (d.method s c.host).2 = some Y →
              (update d c).fsm.nextState = some Y) := by
  have key : frozen d c = false → ∀ s, target c.fsm = some s →
      (update d c).invoked = c.invoked ++ [s]
      ∧ (update d c).fsm.currentState = some s
      ∧ (update d c).fsm.nextState = lastTarget (d.method s c.host).2 :=
    fun hf s hs => update_of_target d c s hf hs
  have hfro : frozen d c = true → (update d c).invoked = c.invoked := by
    intro hf
    rw [update_of_frozen d c hf]
  have hdis : (update d c).invoked = c.invoked
      ∨ ∃ s, target c.fsm = some s ∧ (update d c).invoked = c.invoked ++ [s] := by
    cases hf : frozen d c with
    | true => exact Or.inl (hfro hf)
    | false =>
      cases ht : target c.fsm with
      | none =>
        left
        rw [update_of_not_frozen d c hf, invokeCurrent_invoked]
        simp [ht]
      | some s => exact Or.inr ⟨s, rfl, (key hf s ht).1⟩
  refine ⟨hdis, ?_, hfro, ?_⟩
  · rcases hdis with h | ⟨s, _, h⟩ <;> simp [h]
  · intro hf s hs
    obtain ⟨h1, h2, h3⟩ := key hf s hs
    exact ⟨h1, h2, h3, fun Y hY => by rw [h3, hY]⟩

/-- C3 on the host of `test_default_wait`: the first `update()` invokes
`s1` only, although `S1` calls `transitionTo(s2)`, and leaves `s2` pending. -/
theorem update_invokes_at_most_once_witness :
    (update defaultWaitFSM (started Two.s1 [])).invoked = [Two.s1]
      ∧ (update defaultWaitFSM (started Two.s1 [])).fsm.nextState = some Two.s2 :=
  ⟨((update_invokes_at_most_once defaultWaitFSM (started Two.s1 [])).2.2.2 rfl
      Two.s1 rfl).1,
    ((update_invokes_at_most_once defaultWaitFSM (started Two.s1 [])).2.2.2 rfl
      Two.s1 rfl).2.2.2 Two.s2 rfl⟩

/-! ## A transition without a wait -/

/-- C4: on an engine that is not waiting, after `transitionTo(X)` the next
`update()` invokes `X` on the engine in which `currentState = X` and
`nextState` is null, for every host and so whatever its `waitCondition`
would return: the wait condition is not asked (`asked` does not grow), and
`currentState` is `X` when the update returns. -/
theorem update_after_transitionTo (d : Derived σ H) (m : StateMachine σ) (X : σ) (h : H)
    (inv : List σ) (ask : List Nat) (hw : m.waiting = false) :
    update d { fsm := m.transitionTo X, host := h, invoked := inv, asked := ask }
        = invoke d X
            { fsm := { currentState := some X, nextState := none, waitTime := m.waitTime,
                       waiting := false }
              host := h, invoked := inv, asked := ask }
      ∧ (update d { fsm := m.transitionTo X, host := h, invoked := inv, asked := ask }).invoked
        = inv ++ [X]
      ∧ (update d { fsm := m.transitionTo X, host := h, invoked := inv, asked := ask }).asked
        = ask
      ∧ (update d { fsm := m.transitionTo X, host := h, invoked := inv, asked := ask }
          ).fsm.currentState = some X := by
  have hi : update d { fsm := m.transitionTo X, host := h, invoked := inv, asked := ask }
      = invoke d X
          { fsm := { currentState := some X, nextState := none, waitTime := m.waitTime,
                     waiting := false }
            host := h, invoked := inv, asked := ask } := by
    rw [update_of_not_frozen d _ (by simp [frozen, StateMachine.transitionTo, hw])]
    simp [StateMachine.transitionTo, hw, target, invokeCurrent]
  refine ⟨hi, ?_, ?_, ?_⟩
  · rw [hi]; rfl
  · rw [hi]; rfl
  · rw [hi]; exact invoke_currentState d X _ rfl

/-- C4 on the host of `test_timed_wait`, whose wait condition would hold:
the engine is not waiting, so the update after `transitionTo(s2)` invokes
`s2` at once. -/
theorem update_after_transitionTo_witness :
    timedWaitFSM.waitCondition { clk := 0, start := 0, log := [] } 100 = true
      ∧ (update timedWaitFSM
          { fsm := ({ currentState := some Two.s1, waitTime := 100 } : StateMachine Two
                    ).transitionTo Two.s2
            host := { clk := 0, start := 0, log := [] }
            invoked := [], asked := [] }).invoked = [] ++ [Two.s2] :=
  ⟨by decide,
    (update_after_transitionTo timedWaitFSM { currentState := some Two.s1, waitTime := 100 }
      Two.s2 { clk := 0, start := 0, log := [] } [] [] rfl).2.1⟩

/-! ## Scheduling operations -/

/-- C5: `transitionTo` is last-write-wins.  `transitionTo(X)` followed by
`transitionTo(Y)` gives exactly the engine that `transitionTo(Y)` alone
gives: `nextState = Y`, the other three fields untouched.  The same holds at
the end of a behaviour that calls `transitionTo(X)` then `transitionTo(Y)`.
So the next `update()` is the one that follows `transitionTo(Y)` alone: it
invokes nothing when the engine is frozen by a wait, and otherwise it invokes
exactly `Y` (hence `X` only when `X = Y`).  In particular, when the behaviour
invoked by one `update()` ends with `transitionTo(X); transitionTo(Y)` and
calls no `wait`, the next `update()` invokes `Y`. -/
theorem transitionTo_last_wins (m : StateMachine σ) (X Y : σ) :
    (m.transitionTo X).transitionTo Y = m.transitionTo Y
      ∧ ((m.transitionTo X).transitionTo Y).nextState = some Y
      ∧ ((m.transitionTo X).transitionTo Y).currentState = m.currentState
      ∧ ((m.transitionTo X).transitionTo Y).waitTime = m.waitTime
      ∧ ((m.transitionTo X).transitionTo Y).waiting = m.waiting
      ∧ (∀ cs : List (Call σ),
          runCalls (cs ++ [Call.transitionTo X, Call.transitionTo Y]) m
            = runCalls (cs ++ [Call.transitionTo Y]) m
          ∧ (runCalls (cs ++ [Call.transitionTo X, Call.transitionTo Y]) m).nextState = some Y)
      ∧ ∀ (d : Derived σ H) (h : H) (inv : List σ) (ask : List Nat),
          update d { fsm := (m.transitionTo X).transitionTo Y, host := h, invoked := inv,
                     asked := ask }
            = update d { fsm := m.transitionTo Y, host := h, invoked := inv, asked := ask }
          ∧ (frozen d { fsm := (m.transitionTo X).transitionTo Y, host := h, invoked := inv,
                        asked := ask } = true →
              (update d { fsm := (m.transitionTo X).transitionTo Y, host := h, invoked := inv,
                          asked := ask }).invoked = inv)
          ∧ (frozen d { fsm := (m.transitionTo X).transitionTo Y, host := h, invoked := inv,
                        asked := ask } = false →
              (update d { fsm := (m.transitionTo X).transitionTo Y, host := h, invoked := inv,
                          asked := ask }).invoked = inv ++ [Y])
          ∧ ∀ (c : Instance σ H) (s : σ) (pre : List (Call σ)) (env : H → H),
              frozen d c = false → target c.fsm = some s →
              (d.method s c.host).2 = pre ++ [Call.transitionTo X, Call.transitionTo Y] →
              lastWait pre = none →
              (update d { update d c with host := env (update d c).host }).invoked
                = c.invoked ++ [s, Y] := by
  refine ⟨rfl, rfl, rfl, rfl, rfl, ?_, ?_⟩
  · intro cs
    refine ⟨?_, ?_⟩
    · rw [runCalls_append, runCalls_append]; rfl
    · rw [runCalls_append]; rfl
  · intro d h inv ask
    refine ⟨rfl, ?_, ?_, ?_⟩
    · intro hf
      rw [update_of_frozen d _ hf]
    · intro hf
      rw [update_of_not_frozen d _ hf, invokeCurrent_invoked]
      rfl
    · intro c s pre env hf hs hcs hpre
      obtain ⟨hinv, _, hnext⟩ := update_of_target d c s hf hs
      have hwait : (update d c).fsm.waiting = false := by
        rw [update_of_not_frozen d c hf, hs]
        show (runCalls (d.method s c.host).2 _).waiting = false
        rw [hcs, runCalls_append]
        show (runCalls pre _).waiting = false
        rw [(runCalls_waitTime pre _).2, hpre]
        rfl
      have hY : lastTarget (d.method s c.host).2 = some Y := by
        have h1 := runCalls_nextState (d.method s c.host).2 ({} : StateMachine σ)
        rw [hcs, runCalls_append] at h1
        have h2 : some Y = (lastTarget (pre ++ [Call.transitionTo X, Call.transitionTo Y])).orElse
            (fun _ => none) := h1
        rw [hcs]
        cases hl : lastTarget (pre ++ [Call.transitionTo X, Call.transitionTo Y]) with
        | none => rw [hl] at h2; cases h2
        | some v => rw [hl] at h2; exact h2.symm
      have hf2 : frozen d { update d c with host := env (update d c).host } = false := by
        simp [frozen, hwait]
      have ht2 : target ({ update d c with host := env (update d c).host } : Instance σ H).fsm
          = some Y := by
        show target (update d c).fsm = some Y
        unfold target
        rw [hnext, hY]
      rw [(update_of_target d _ Y hf2 ht2).1]
      show (update d c).invoked ++ [Y] = _
      rw [hinv]
      simp

/-- C5 on the host of `test_rapid_fire`: `S1` calls `transitionTo(s2)` then
`transitionTo(s3)`; the second `update()` invokes `s3`, and `s2` is never
invoked. -/
theorem transitionTo_last_wins_witness :
    (update rapidFireFSM (started Three.s1 [])).fsm
        = (((({} : StateMachine Three).setInitialState Three.s1).transitionTo Three.s2
            ).transitionTo Three.s3)
      ∧ (update rapidFireFSM
          { update rapidFireFSM (started Three.s1 []) with
            host := id (update rapidFireFSM (started Three.s1 [])).host }).invoked
        = [] ++ [Three.s1, Three.s3] :=
  ⟨rfl,
    ((transitionTo_last_wins (({} : StateMachine Three).setInitialState Three.s1)
        Three.s2 Three.s3).2.2.2.2.2.2 rapidFireFSM ['1'] [Three.s1] []).2.2.2
      (started Three.s1 []) Three.s1 [] id rfl rfl rfl rfl⟩

/-! ## The initial state -/

theorem lastTarget_mem (cs : List (Call σ)) (t : σ) (h : lastTarget cs = some t) :
    Call.transitionTo t ∈ cs := by
  induction cs with
  | nil => simp [lastTarget] at h
  | cons c cs ih =>
    cases c with
    | setInitialState s => exact List.mem_cons_of_mem _ (ih (by simpa [lastTarget] using h))
    | wait ms => exact List.mem_cons_of_mem _ (ih (by simpa [lastTarget] using h))
    | transitionTo s =>
      simp only [lastTarget] at h
      cases hl : lastTarget cs with
      | none =>
        rw [hl] at h
        simp only [Option.orElse] at h
        cases h
        exact List.mem_cons_self _ _
      | some u =>
        rw [hl] at h
        simp only [Option.orElse] at h
        cases h
        exact List.mem_cons_of_mem _ (ih hl)

/-- One `update()` keeps the states the engine holds or has invoked inside
any set that contains every target the behaviours transition to. -/
theorem update_statesIn (d : Derived σ H) (P : σ → Prop)
    (hP : ∀ s h t, Call.transitionTo t ∈ (d.method s h).2 → P t)
    (c : Instance σ H) (hc : StatesIn P c) : StatesIn P (update d c) := by
  obtain ⟨h1, h2, h3⟩ := hc
  cases hf : frozen d c with
  | true =>
    rw [update_of_frozen d c hf]
    exact ⟨h1, h2, h3⟩
  | false =>
    rw [update_of_not_frozen d c hf]
    cases ht : target c.fsm with
    | none =>
      refine ⟨?_, ?_, ?_⟩
      · intro s hs; simp [invokeCurrent] at hs
      · intro s hs; simp [invokeCurrent] at hs
      · intro s hs
        simp [invokeCurrent] at hs
        exact h3 s hs
    | some s =>
      have hPs : P s := by
        unfold target at ht
        cases hn : c.fsm.nextState with
        | none => rw [hn] at ht; exact h1 s ht
        | some n =>
          rw [hn] at ht
          cases ht
          exact h2 _ hn
      refine ⟨?_, ?_, ?_⟩
      · intro u hu
        have hcur := invokeCurrent_currentState d
          { c with
            fsm := { currentState := some s, nextState := none,
                     waitTime := c.fsm.waitTime, waiting := false }
            asked := if c.fsm.waiting then c.asked ++ [c.fsm.waitTime] else c.asked }
        rw [hcur] at hu
        cases hu
        exact hPs
      · intro u hu
        simp only [invokeCurrent, invoke] at hu
        rw [runCalls_nextState] at hu
        cases hl : lastTarget (d.method s c.host).2 with
        | none => rw [hl] at hu; simp [Option.orElse] at hu
        | some v =>
          rw [hl] at hu
          simp only [Option.orElse] at hu
          cases hu
          exact hP s c.host _ (lastTarget_mem _ _ hl)
      · intro u hu
        simp only [invokeCurrent, invoke, List.mem_append, List.mem_singleton] at hu
        rcases hu with hu | hu
        · exact h3 u hu
        · rw [hu]; exact hPs

theorem pollAll_statesIn (d : Derived σ H) (P : σ → Prop)
    (hP : ∀ s h t, Call.transitionTo t ∈ (d.method s h).2 → P t)
    (envs : List (H → H)) (c : Instance σ H) (hc : StatesIn P c) :
    StatesIn P (pollAll d envs c) := by
  induction envs generalizing c with
  | nil => exact hc
  | cons env envs ih => exact ih _ (update_statesIn d P hP _ hc)

theorem update_started (d : Derived σ H) (A : σ) (h : H) :
    update d (started A h)
      = invoke d A { fsm := { currentState := some A }, host := h } := rfl

/-- C6: `setInitialState` is first-writer-wins.  With `currentState` null,
`setInitialState(A)` sets `currentState = A` and nothing else; with
`currentState` set, `setInitialState(B)` changes no field.  So on a fresh
engine `setInitialState(A); setInitialState(B)` equals `setInitialState(A)`,
the first `update()` invokes `A`, and in any polling loop every state ever
invoked is `A` or the target of a `transitionTo` that some behaviour makes:
`B` is not invoked unless a behaviour transitions to it. -/
theorem setInitialState_first_wins (A B : σ) :
    (∀ m : StateMachine σ, m.currentState = none →
        m.setInitialState A = { m with currentState := some A })
      ∧ (∀ (m : StateMachine σ) (s : σ), m.currentState = some s → m.setInitialState B = m)
      ∧ (({} : StateMachine σ).setInitialState A).setInitialState B
          = ({} : StateMachine σ).setInitialState A
      ∧ ∀ (d : Derived σ H) (h : H),
          (update d { fsm := (({} : StateMachine σ).setInitialState A).setInitialState B,
                      host := h }).invoked = [A]
          ∧ ∀ (envs : List (H → H)) (s : σ),
              s ∈ (pollAll d envs
                    { fsm := (({} : StateMachine σ).setInitialState A).setInitialState B,
                      host := h }).invoked →
              s = A ∨ ∃ s0 h0, Call.transitionTo s ∈ (d.method s0 h0).2 := by
  refine ⟨?_, ?_, rfl, ?_⟩
  · intro m hm
    simp [StateMachine.setInitialState, hm]
  · intro m s hm
    simp [StateMachine.setInitialState, hm]
  · intro d h
    refine ⟨rfl, ?_⟩
    intro envs s hs
    have h0 : StatesIn (fun s => s = A ∨ ∃ s0 h0, Call.transitionTo s ∈ (d.method s0 h0).2)
        ({ fsm := (({} : StateMachine σ).setInitialState A).setInitialState B, host := h }
          : Instance σ H) := by
      refine ⟨?_, ?_, ?_⟩
      · intro u hu
        have : some A = some u := hu
        cases this
        exact Or.inl rfl
      · intro u hu
        cases hu
      · intro u hu
        cases hu
    have hinv := pollAll_statesIn d
      (fun s => s = A ∨ ∃ s0 h0, Call.transitionTo s ∈ (d.method s0 h0).2)
      (fun s0 h0 t ht => Or.inr ⟨s0, h0, ht⟩) envs _ h0
    exact hinv.2.2 s hs

/-- C6 on the host of `test_double_set_initial`: after `setInitialState(s1);
setInitialState(s2)` the update invokes `s1`, and three updates never invoke
`s2`. -/
theorem setInitialState_first_wins_witness :
    ({ currentState := some Two.s1 } : StateMachine Two).setInitialState Two.s2
        = { currentState := some Two.s1 }
      ∧ (update doubleSetFSM
          { fsm := (({} : StateMachine Two).setInitialState Two.s1).setInitialState Two.s2,
            host := [] }).invoked = [Two.s1]
      ∧ (Two.s2 ∈ (pollAll doubleSetFSM [id, id, id]
            { fsm := (({} : StateMachine Two).setInitialState Two.s1).setInitialState Two.s2,
              host := [] }).invoked →
          Two.s2 = Two.s1
            ∨ ∃ s0 h0, Call.transitionTo Two.s2 ∈ (doubleSetFSM.method s0 h0).2) :=
  ⟨(@setInitialState_first_wins Two (List Char) Two.s1 Two.s2).2.1 _ Two.s1 rfl,
    ((setInitialState_first_wins Two.s1 Two.s2).2.2.2 doubleSetFSM []).1,
    ((setInitialState_first_wins Two.s1 Two.s2).2.2.2 doubleSetFSM []).2 [id, id, id] Two.s2⟩

/-! ## The wait duration -/

/-- What `update()` passes to `waitCondition`: `waitTime` when the engine is
waiting, and nothing otherwise. -/
theorem update_asked (d : Derived σ H) (c : Instance σ H) :
    (update d c).asked = if c.fsm.waiting then c.asked ++ [c.fsm.waitTime] else c.asked := by
  cases hf : frozen d c with
  | true =>
    have hw : c.fsm.waiting = true := by
      simp only [frozen, Bool.and_eq_true] at hf
      exact hf.1
    rw [update_of_frozen d c hf, hw]
    rfl
  | false => rw [update_of_not_frozen d c hf, invokeCurrent_asked]

/-- The `update()` of a waiting engine is decided by `waitCondition` at
`waitTime`: it returns at step 1 when that call is true and goes on to steps
2 and 3 when it is false. -/
theorem update_of_waiting (d : Derived σ H) (c : Instance σ H) (hw : c.fsm.waiting = true) :
    update d c
      = if d.waitCondition c.host c.fsm.waitTime then
          { c with asked := c.asked ++ [c.fsm.waitTime] }
        else
          invokeCurrent d
            { c with
              fsm := { currentState := target c.fsm, nextState := none,
                       waitTime := c.fsm.waitTime, waiting := false }
              asked := c.asked ++ [c.fsm.waitTime] } := by
  cases hc : d.waitCondition c.host c.fsm.waitTime with
  | true =>
    rw [update_of_frozen d c (by simp [frozen, hw, hc])]
    simp
  | false =>
    rw [update_of_not_frozen d c (by simp [frozen, hc]), hw]
    simp

/-- C7: `wait(ms)` sets `waitTime = ms` and `waiting = true` and leaves
`currentState` and `nextState` as they were; a later `wait` overwrites an
earlier one.  The next `update()` then calls `waitCondition` once, with
exactly `ms`, and the answer to that call decides it: for every host, the
update returns at step 1 when `waitCondition(ms)` is true and applies the
transition and invokes when `waitCondition(ms)` is false, whatever the wait
condition answers for other durations.  The same holds after any sequence of
calls whose last `wait` has duration `ms`. -/
theorem wait_sets_duration (m : StateMachine σ) (ms : Nat) :
    (m.wait ms).waitTime = ms ∧ (m.wait ms).waiting = true
      ∧ (m.wait ms).currentState = m.currentState
      ∧ (m.wait ms).nextState = m.nextState
      ∧ (∀ d1 : Nat, (m.wait d1).wait ms = m.wait ms)
      ∧ (∀ (d : Derived σ H) (h : H) (inv : List σ) (ask : List Nat),
          (update d { fsm := m.wait ms, host := h, invoked := inv, asked := ask }).asked
            = ask ++ [ms]
          ∧ (∀ d1 : Nat,
            (update d { fsm := (m.wait d1).wait ms, host := h, invoked := inv,
                        asked := ask }).asked = ask ++ [ms])
          ∧ update d { fsm := m.wait ms, host := h, invoked := inv, asked := ask }
            = (if d.waitCondition h ms then
                { fsm := m.wait ms, host := h, invoked := inv, asked := ask ++ [ms] }
              else
                invokeCurrent d
                  { fsm := { currentState := target m, nextState := none, waitTime := ms,
                             waiting := false }
                    host := h, invoked := inv, asked := ask ++ [ms] })
          ∧ (d.waitCondition h ms = true →
              (update d { fsm := m.wait ms, host := h, invoked := inv, asked := ask }).invoked
                = inv
              ∧ (update d { fsm := m.wait ms, host := h, invoked := inv, asked := ask }).fsm
                = m.wait ms)
          ∧ (d.waitCondition h ms = false →
              (update d { fsm := m.wait ms, host := h, invoked := inv, asked := ask }).invoked
                = inv ++ (target m).toList)
          ∧ ∀ d1 : Nat,
              update d { fsm := (m.wait d1).wait ms, host := h, invoked := inv, asked := ask }
                = update d { fsm := m.wait ms, host := h, invoked := inv, asked := ask })
      ∧ ∀ cs : List (Call σ), lastWait cs = some ms →
          ∀ (d : Derived σ H) (h : H) (inv : List σ) (ask : List Nat),
            (update d { fsm := runCalls cs m, host := h, invoked := inv, asked := ask }).asked
              = ask ++ [ms]
            ∧ update d { fsm := runCalls cs m, host := h, invoked := inv, asked := ask }
              = (if d.waitCondition h ms then
                  { fsm := runCalls cs m, host := h, invoked := inv, asked := ask ++ [ms] }
                else
                  invokeCurrent d
                    { fsm := { currentState := target (runCalls cs m), nextState := none,
                               waitTime := ms, waiting := false }
                      host := h, invoked := inv, asked := ask ++ [ms] })
            ∧ (d.waitCondition h ms = true →
                (update d { fsm := runCalls cs m, host := h, invoked := inv,
                            asked := ask }).invoked = inv)
            ∧ (d.waitCondition h ms = false →
                (update d { fsm := runCalls cs m, host := h, invoked := inv,
                            asked := ask }).invoked
                  = inv ++ (target (runCalls cs m)).toList) := by
  refine ⟨rfl, rfl, rfl, rfl, fun _ => rfl, ?_, ?_⟩
  · intro d h inv ask
    have hu := update_of_waiting d
      { fsm := m.wait ms, host := h, invoked := inv, asked := ask } rfl
    have hu2 : update d { fsm := m.wait ms, host := h, invoked := inv, asked := ask }
        = (if d.waitCondition h ms then
            { fsm := m.wait ms, host := h, invoked := inv, asked := ask ++ [ms] }
          else
            invokeCurrent d
              { fsm := { currentState := target m, nextState := none, waitTime := ms,
                         waiting := false }
                host := h, invoked := inv, asked := ask ++ [ms] }) := hu
    refine ⟨?_, fun d1 => ?_, hu2, ?_, ?_, fun _ => rfl⟩
    · rw [update_asked]; rfl
    · rw [update_asked]; rfl
    · intro hc
      rw [hu2, if_pos hc]
      exact ⟨rfl, rfl⟩
    · intro hc
      rw [hu2, if_neg (by simp [hc]), invokeCurrent_invoked]
  · intro cs hcs d h inv ask
    obtain ⟨h1, h2⟩ := runCalls_waitTime cs m
    have hwt : (runCalls cs m).waitTime = ms := by simp [h1, hcs]
    have hw : (runCalls cs m).waiting = true := by simp [h2, hcs]
    have hu := update_of_waiting d
      { fsm := runCalls cs m, host := h, invoked := inv, asked := ask } hw
    simp only [hwt] at hu
    have hu2 : update d { fsm := runCalls cs m, host := h, invoked := inv, asked := ask }
        = (if d.waitCondition h ms then
            { fsm := runCalls cs m, host := h, invoked := inv, asked := ask ++ [ms] }
          else
            invokeCurrent d
              { fsm := { currentState := target (runCalls cs m), nextState := none,
                         waitTime := ms, waiting := false }
                host := h, invoked := inv, asked := ask ++ [ms] }) := hu
    refine ⟨?_, hu2, ?_, ?_⟩
    · rw [update_asked]
      simp [hwt, hw]
    · intro hc
      rw [hu2, if_pos hc]
    · intro hc
      rw [hu2, if_neg (by simp [hc]), invokeCurrent_invoked]

/-- C7 on the host of `test_timed_wait` at clock 50 with `start = 0`, whose
wait condition is true for 100 and false for 7 and for 0.  After the calls
`wait(7); transitionTo(s2); wait(100)` the next `update()` asks
`waitCondition(100)` and is stopped by it; after `wait(100); transitionTo(s2);
wait(7)` it asks `waitCondition(7)` and invokes `s2`. -/
theorem wait_sets_duration_witness :
    timedWaitFSM.waitCondition { clk := 50, start := 0, log := [] } 100 = true
      ∧ timedWaitFSM.waitCondition { clk := 50, start := 0, log := [] } 7 = false
      ∧ timedWaitFSM.waitCondition { clk := 50, start := 0, log := [] } 0 = false
      ∧ (update timedWaitFSM
          { fsm := runCalls [Call.wait 7, Call.transitionTo Two.s2, Call.wait 100]
                     { currentState := some Two.s1 }
            host := { clk := 50, start := 0, log := [] }
            invoked := [], asked := [] }).asked = [] ++ [100]
      ∧ (update timedWaitFSM
          { fsm := runCalls [Call.wait 7, Call.transitionTo Two.s2, Call.wait 100]
                     { currentState := some Two.s1 }
            host := { clk := 50, start := 0, log := [] }
            invoked := [], asked := [] }).invoked = []
      ∧ (update timedWaitFSM
          { fsm := runCalls [Call.wait 100, Call.transitionTo Two.s2, Call.wait 7]
                     { currentState := some Two.s1 }
            host := { clk := 50, start := 0, log := [] }
            invoked := [], asked := [] }).invoked
        = [] ++ (target (runCalls [Call.wait 100, Call.transitionTo Two.s2, Call.wait 7]
                  ({ currentState := some Two.s1 } : StateMachine Two))).toList
      ∧ (target (runCalls [Call.wait 100, Call.transitionTo Two.s2, Call.wait 7]
                  ({ currentState := some Two.s1 } : StateMachine Two))).toList = [Two.s2] :=
  ⟨by decide, by decide, by decide,
    ((wait_sets_duration ({ currentState := some Two.s1 } : StateMachine Two) 100).2.2.2.2.2.2
      [Call.wait 7, Call.transitionTo Two.s2, Call.wait 100] rfl timedWaitFSM
      { clk := 50, start := 0, log := [] } [] []).1,
    ((wait_sets_duration ({ currentState := some Two.s1 } : StateMachine Two) 100).2.2.2.2.2.2
      [Call.wait 7, Call.transitionTo Two.s2, Call.wait 100] rfl timedWaitFSM
      { clk := 50, start := 0, log := [] } [] []).2.2.1 (by decide),
    ((wait_sets_duration ({ currentState := some Two.s1 } : StateMachine Two) 7).2.2.2.2.2.2
      [Call.wait 100, Call.transitionTo Two.s2, Call.wait 7] rfl timedWaitFSM
      { clk := 50, start := 0, log := [] } [] []).2.2.2 (by decide),
    rfl⟩

/-! ## Null pointers -/

/-- C8, as stated, fails when `nextState` is set.  On an engine with
`currentState` null and `nextState = s2` (a host that called `transitionTo`
and never `setInitialState`), step 2 of `update()` makes `s2` current and
step 3 invokes it. -/
theorem update_null_current_counterexample :
    ({ nextState := some Two.s2 } : StateMachine Two).currentState = none
      ∧ (update doubleSetFSM { fsm := { nextState := some Two.s2 }, host := [] }).invoked
        = [Two.s2]
      ∧ (update doubleSetFSM { fsm := { nextState := some Two.s2 }, host := [] }).host = ['2']
      ∧ ¬ ∀ (d : Derived Two (List Char)) (c : Instance Two (List Char)),
          c.fsm.currentState = none → (update d c).invoked = c.invoked := by
  refine ⟨rfl, rfl, rfl, ?_⟩
  intro hall
  have h := hall doubleSetFSM { fsm := { nextState := some Two.s2 }, host := [] } rfl
  exact absurd h (by decide)

/-- C8 (amended): when `currentState` and `nextState` are both null, for all
values of `waitTime` and `waiting` and for every `waitCondition`, `update()`
invokes nothing; both pointers stay null and the host fields are untouched. -/
theorem update_null_pointers (d : Derived σ H) (c : Instance σ H)
    (hc : c.fsm.currentState = none) (hn : c.fsm.nextState = none) :
    (update d c).invoked = c.invoked ∧ (update d c).host = c.host
      ∧ (update d c).fsm.currentState = none ∧ (update d c).fsm.nextState = none := by
  have ht : target c.fsm = none := by simp [target, hc, hn]
  cases hf : frozen d c with
  | true =>
    rw [update_of_frozen d c hf]
    exact ⟨rfl, rfl, hc, hn⟩
  | false =>
    rw [update_of_not_frozen d c hf, ht]
    exact ⟨rfl, rfl, rfl, rfl⟩

/-- C8 (amended) on an engine with null pointers that is waiting. -/
theorem update_null_pointers_witness :
    (update doubleSetFSM
        { fsm := { waitTime := 5, waiting := true }, host := [], invoked := [] }).invoked = []
      ∧ (update timedWaitFSM
          { fsm := { waitTime := 5, waiting := true }
            host := { clk := 0, start := 0, log := [] }, invoked := [] }).invoked = [] :=
  ⟨(update_null_pointers doubleSetFSM
      { fsm := { waitTime := 5, waiting := true }, host := [], invoked := [] } rfl rfl).1,
    (update_null_pointers timedWaitFSM
      { fsm := { waitTime := 5, waiting := true }
        host := { clk := 0, start := 0, log := [] }, invoked := [] } rfl rfl).1⟩

/-- C9: on a freshly constructed engine (both pointers null, `waitTime = 0`,
`waiting = false`) on which `setInitialState` was never called, `n`
consecutive `update()` calls, for every `n`, leave the whole object as it
was: the engine keeps its default fields, nothing is invoked (the only
dereference of a state pointer in `update` is that invocation) and the wait
condition is not asked. -/
theorem updateN_fresh (d : Derived σ H) (h : H) (n : Nat) :
    updateN d n { fsm := {}, host := h } = { fsm := {}, host := h }
      ∧ (updateN d n { fsm := {}, host := h }).fsm
          = { currentState := none, nextState := none, waitTime := 0, waiting := false }
      ∧ (updateN d n { fsm := {}, host := h }).invoked = [] := by
  have hu : updateN d n { fsm := {}, host := h } = { fsm := {}, host := h } := by
    induction n with
    | zero => rfl
    | succ n ih => exact ih
  rw [hu]
  exact ⟨rfl, rfl, rfl⟩

/-! ## The two-state cycle -/

theorem updateN_cycle (d : Derived σ H) (S1 S2 : σ)
    (h1 : ∀ h, lastTarget (d.method S1 h).2 = some S2)
    (h2 : ∀ h, lastTarget (d.method S2 h).2 = some S1)
    (hwc : ∀ h ms, d.waitCondition h ms = false) (N : Nat) :
    ∀ (k : Nat) (c : Instance σ H), target c.fsm = some (if k % 2 = 0 then S1 else S2) →
      (updateN d N c).invoked
        = c.invoked ++ (List.range N).map (fun i => if (k + i) % 2 = 0 then S1 else S2) := by
  induction N with
  | zero => intro k c _; simp [updateN]
  | succ N ih =>
    intro k c hk
    have hf : frozen d c = false := by simp [frozen, hwc]
    obtain ⟨hinv, _, hnext⟩ := update_of_target d c _ hf hk
    have hk1 : target (update d c).fsm = some (if (k + 1) % 2 = 0 then S1 else S2) := by
      unfold target
      rw [hnext]
      rcases Nat.mod_two_eq_zero_or_one k with h | h
      · have h3 : (k + 1) % 2 = 1 := by omega
        simp [h, h3, h1]
      · have h3 : (k + 1) % 2 = 0 := by omega
        simp [h, h3, h2]
    rw [updateN, ih (k + 1) (update d c) hk1, hinv, List.range_succ_eq_map]
    simp [Function.comp_def, Nat.add_assoc, Nat.add_comm 1]

/-- C10: for a host with states `S1` and `S2` in which the behaviour of `S1`
transitions to `S2` and the behaviour of `S2` transitions to `S1` (the last
`transitionTo` of each names the other; they may also call `wait`), a
`waitCondition` that always returns false and initial state `S1`: for every
`N`, `N` consecutive `update()` calls invoke exactly `S1, S2, S1, S2, ...`,
`N` invocations in all, the `k`-th (from 0) being `S1` for even `k` and `S2`
for odd `k`. -/
theorem two_state_cycle (d : Derived σ H) (S1 S2 : σ)
    (h1 : ∀ h, lastTarget (d.method S1 h).2 = some S2)
    (h2 : ∀ h, lastTarget (d.method S2 h).2 = some S1)
    (hwc : ∀ h ms, d.waitCondition h ms = false) (h0 : H) (N : Nat) :
    (updateN d N (started S1 h0)).invoked
        = (List.range N).map (fun k => if k % 2 = 0 then S1 else S2)
      ∧ (updateN d N (started S1 h0)).invoked.length = N
      ∧ ∀ k, k < N →
          (updateN d N (started S1 h0)).invoked[k]? = some (if k % 2 = 0 then S1 else S2) := by
  have h := updateN_cycle d S1 S2 h1 h2 hwc N 0 (started S1 h0) rfl
  have hlist : (updateN d N (started S1 h0)).invoked
      = (List.range N).map (fun k => if k % 2 = 0 then S1 else S2) := by
    rw [h]
    simp [started]
  refine ⟨hlist, ?_, ?_⟩
  · rw [hlist]; simp
  · intro k hk
    rw [hlist]
    simp [List.getElem?_map, List.getElem?_range hk]

/-- C10 on the host of `test_default_wait`: four updates invoke
`s1, s2, s1, s2`. -/
theorem two_state_cycle_witness :
    (updateN defaultWaitFSM 4 (started Two.s1 [])).invoked
        = (List.range 4).map (fun k => if k % 2 = 0 then Two.s1 else Two.s2)
      ∧ (List.range 4).map (fun k => if k % 2 = 0 then Two.s1 else Two.s2)
        = [Two.s1, Two.s2, Two.s1, Two.s2] :=
  ⟨(two_state_cycle defaultWaitFSM Two.s1 Two.s2 (fun _ => rfl) (fun _ => rfl)
      (fun _ _ => rfl) [] 4).1, by decide⟩

/-! ## Order of the chained calls -/

/-- C19: `transitionTo` and `wait` commute.  `transitionTo(X).wait(ms)` and
`wait(ms).transitionTo(X)` give the same engine (`nextState = X`,
`waitTime = ms`, `waiting = true`, `currentState` untouched), also at the end
of a behaviour, so every later `update()` and every later polling loop is the
same for both orders. -/
theorem transitionTo_wait_comm (m : StateMachine σ) (X : σ) (ms : Nat) :
    (m.transitionTo X).wait ms = (m.wait ms).transitionTo X
      ∧ (m.transitionTo X).wait ms
          = { currentState := m.currentState, nextState := some X, waitTime := ms,
              waiting := true }
      ∧ (∀ cs : List (Call σ),
          runCalls (cs ++ [Call.transitionTo X, Call.wait ms]) m
            = runCalls (cs ++ [Call.wait ms, Call.transitionTo X]) m)
      ∧ ∀ (d : Derived σ H) (h : H) (inv : List σ) (ask : List Nat),
          update d { fsm := (m.transitionTo X).wait ms, host := h, invoked := inv, asked := ask }
            = update d { fsm := (m.wait ms).transitionTo X, host := h, invoked := inv,
                         asked := ask }
          ∧ ∀ envs : List (H → H),
              pollAll d envs
                  { fsm := (m.transitionTo X).wait ms, host := h, invoked := inv, asked := ask }
                = pollAll d envs
                  { fsm := (m.wait ms).transitionTo X, host := h, invoked := inv,
                    asked := ask } := by
  refine ⟨rfl, rfl, ?_, ?_⟩
  · intro cs
    rw [runCalls_append, runCalls_append]
    rfl
  · intro d h inv ask
    exact ⟨rfl, fun _ => rfl⟩

/-! ## The current state stays set -/

theorem target_of_currentState (m : StateMachine σ) (s0 : σ) (hm : m.currentState = some s0) :
    ∃ s, target m = some s := by
  unfold target
  cases m.nextState with
  | none => exact ⟨s0, hm⟩
  | some n => exact ⟨n, rfl⟩

theorem update_currentState_isSome (d : Derived σ H) (c : Instance σ H)
    (hc : c.fsm.currentState.isSome = true) : (update d c).fsm.currentState.isSome = true := by
  obtain ⟨s0, hs0⟩ := Option.isSome_iff_exists.mp hc
  cases hf : frozen d c with
  | true =>
    rw [update_of_frozen d c hf]
    exact hc
  | false =>
    obtain ⟨s, hs⟩ := target_of_currentState c.fsm s0 hs0
    rw [(update_of_target d c s hf hs).2.1]
    rfl

theorem pollAll_currentState_isSome (d : Derived σ H) (envs : List (H → H)) (c : Instance σ H)
    (hc : c.fsm.currentState.isSome = true) :
    (pollAll d envs c).fsm.currentState.isSome = true := by
  induction envs generalizing c with
  | nil => exact hc
  | cons env envs ih => exact ih _ (update_currentState_isSome d _ hc)

/-- C16: once `currentState` is set it is never null again.  On an engine
with `currentState` set, `setInitialState`, `transitionTo` and `wait` leave it
as it is, and `update()` (hence any polling loop) leaves it set; after
`setInitialState` it is always set.  So from then on every `update()` that is
not stopped at step 1 performs exactly one invocation. -/
theorem currentState_stays_set (m : StateMachine σ) (s0 : σ) (hm : m.currentState = some s0) :
    (∀ s, (m.setInitialState s).currentState = some s0)
      ∧ (∀ s, (m.transitionTo s).currentState = some s0)
      ∧ (∀ ms, (m.wait ms).currentState = some s0)
      ∧ (∀ (m0 : StateMachine σ) (s : σ), (m0.setInitialState s).currentState.isSome = true)
      ∧ ∀ (d : Derived σ H) (h : H) (inv : List σ) (ask : List Nat),
          (update d { fsm := m, host := h, invoked := inv, asked := ask }
            ).fsm.currentState.isSome = true
          ∧ (frozen d { fsm := m, host := h, invoked := inv, asked := ask } = false →
              ∃ x, (update d { fsm := m, host := h, invoked := inv, asked := ask }).invoked
                = inv ++ [x])
          ∧ ∀ envs : List (H → H),
              (pollAll d envs { fsm := m, host := h, invoked := inv, asked := ask }
                ).fsm.currentState.isSome = true
              ∧ (frozen d (pollAll d envs { fsm := m, host := h, invoked := inv, asked := ask })
                    = false →
                  ∃ x, (update d (pollAll d envs
                          { fsm := m, host := h, invoked := inv, asked := ask })).invoked
                    = (pollAll d envs
                          { fsm := m, host := h, invoked := inv, asked := ask }).invoked
                        ++ [x]) := by
  have once : ∀ (d : Derived σ H) (c : Instance σ H), c.fsm.currentState.isSome = true →
      frozen d c = false → ∃ x, (update d c).invoked = c.invoked ++ [x] := by
    intro d c hc hf
    obtain ⟨s1, hs1⟩ := Option.isSome_iff_exists.mp hc
    obtain ⟨s, hs⟩ := target_of_currentState c.fsm s1 hs1
    exact ⟨s, (update_of_target d c s hf hs).1⟩
  refine ⟨?_, ?_, ?_, ?_, ?_⟩
  · intro s
    simp [StateMachine.setInitialState, hm]
  · intro s
    exact hm
  · intro ms
    exact hm
  · intro m0 s
    unfold StateMachine.setInitialState
    cases h0 : m0.currentState with
    | none => rfl
    | some x => simp [h0]
  · intro d h inv ask
    have hc : ({ fsm := m, host := h, invoked := inv, asked := ask } : Instance σ H
        ).fsm.currentState.isSome = true := by
      simp [hm]
    refine ⟨update_currentState_isSome d _ hc, once d _ hc, ?_⟩
    intro envs
    have hp := pollAll_currentState_isSome d envs _ hc
    exact ⟨hp, once d _ hp⟩

/-- C16 on the host of `test_zero_delay`: two updates leave `currentState`
set, and the second one, which is not frozen, invokes one state. -/
theorem currentState_stays_set_witness :
    (update zeroDelayFSM
        { fsm := { currentState := some Two.s1 }, host := [], invoked := [], asked := [] }
      ).fsm.currentState.isSome = true
      ∧ ∃ x, (update zeroDelayFSM
          (pollAll zeroDelayFSM [id]
            { fsm := { currentState := some Two.s1 }, host := [], invoked := [],
              asked := [] })).invoked
        = (pollAll zeroDelayFSM [id]
            { fsm := { currentState := some Two.s1 }, host := [], invoked := [],
              asked := [] }).invoked ++ [x] :=
  ⟨((currentState_stays_set ({ currentState := some Two.s1 } : StateMachine Two) Two.s1
      rfl).2.2.2.2 zeroDelayFSM [] [] []).1,
    (((currentState_stays_set ({ currentState := some Two.s1 } : StateMachine Two) Two.s1
      rfl).2.2.2.2 zeroDelayFSM [] [] []).2.2 [id]).2 rfl⟩

/-! ## A transition scheduled before the first update -/

/-- C17: a transition scheduled before the first `update()` overrides the
initial state.  On a fresh engine `transitionTo(X)` and `setInitialState(A)`
give the same engine in either order, and the first `update()` makes `X`
current and invokes exactly `X` (so `A` only when `A = X`).  Likewise with
`currentState` null and `nextState = X` on an engine that is not waiting:
`update()` makes `X` current and invokes it. -/
theorem pending_overrides_initial (A X : σ) (d : Derived σ H) (h : H) :
    (({} : StateMachine σ).transitionTo X).setInitialState A
        = (({} : StateMachine σ).setInitialState A).transitionTo X
      ∧ update d { fsm := (({} : StateMachine σ).transitionTo X).setInitialState A, host := h }
          = invoke d X { fsm := { currentState := some X }, host := h }
      ∧ update d { fsm := (({} : StateMachine σ).setInitialState A).transitionTo X, host := h }
          = invoke d X { fsm := { currentState := some X }, host := h }
      ∧ (update d { fsm := (({} : StateMachine σ).transitionTo X).setInitialState A,
                    host := h }).invoked = [X]
      ∧ (update d { fsm := (({} : StateMachine σ).setInitialState A).transitionTo X,
                    host := h }).invoked = [X]
      ∧ (update d { fsm := (({} : StateMachine σ).setInitialState A).transitionTo X,
                    host := h }).fsm.currentState = some X
      ∧ (A ≠ X →
          A ∉ (update d { fsm := (({} : StateMachine σ).setInitialState A).transitionTo X,
                          host := h }).invoked)
      ∧ (update d { fsm := ({} : StateMachine σ).transitionTo X, host := h }).invoked = [X]
      ∧ ∀ (m : StateMachine σ) (inv : List σ) (ask : List Nat),
          m.currentState = none → m.nextState = some X → m.waiting = false →
          (update d { fsm := m, host := h, invoked := inv, asked := ask }).invoked = inv ++ [X]
          ∧ (update d { fsm := m, host := h, invoked := inv, asked := ask }
              ).fsm.currentState = some X := by
  refine ⟨rfl, rfl, rfl, rfl, rfl, ?_, ?_, rfl, ?_⟩
  · exact invoke_currentState d X _ rfl
  · intro hne hmem
    have : A ∈ [X] := hmem
    simp at this
    exact hne this
  · intro m inv ask _ hn hw
    have hf : frozen d { fsm := m, host := h, invoked := inv, asked := ask } = false := by
      simp [frozen, hw]
    have ht : target ({ fsm := m, host := h, invoked := inv, asked := ask } : Instance σ H).fsm
        = some X := by
      simp [target, hn]
    exact ⟨(update_of_target d _ X hf ht).1, (update_of_target d _ X hf ht).2.1⟩

/-- C17 on the host of `test_double_set_initial` with `transitionTo(s2)`
issued before the first update: the update invokes `s2`, not `s1`. -/
theorem pending_overrides_initial_witness :
    (update doubleSetFSM
        { fsm := (({} : StateMachine Two).setInitialState Two.s1).transitionTo Two.s2,
          host := [] }).host = ['2']
      ∧ Two.s1 ∉ (update doubleSetFSM
          { fsm := (({} : StateMachine Two).setInitialState Two.s1).transitionTo Two.s2,
            host := [] }).invoked
      ∧ (update doubleSetFSM
          { fsm := { nextState := some Two.s2, waitTime := 3 }, host := [], invoked := [],
            asked := [] }).invoked = [] ++ [Two.s2] :=
  ⟨rfl,
    (pending_overrides_initial Two.s1 Two.s2 doubleSetFSM []).2.2.2.2.2.2.1 (by decide),
    ((pending_overrides_initial Two.s1 Two.s2 doubleSetFSM []).2.2.2.2.2.2.2.2
      { nextState := some Two.s2, waitTime := 3 } [] [] rfl rfl rfl).1⟩

/-! ## The default wait condition -/

/-- C13, as stated, fails in its `isWaiting (= false)`.  The class `TwoState`
of `size_demo.cpp` has a `waitCondition` that always returns false, and its
behaviours call `wait(0)`: after the `update()` that follows `wait(5)`, and
after the `update()` from the same engine without it, `waiting` is true. -/
theorem wait_inert_by_default_counterexample :
    twoStateFSM.waitCondition = defaultWaitCondition
      ∧ (update twoStateFSM
          { fsm := ({ currentState := some Two.s1 } : StateMachine Two).wait 5, host := 0 }
          ).fsm.waiting = true
      ∧ (update twoStateFSM
          { fsm := ({ currentState := some Two.s1 } : StateMachine Two), host := 0 }
          ).fsm.waiting = true
      ∧ ¬ ∀ (d : Derived Two Int), (∀ h ms, d.waitCondition h ms = false) →
          ∀ (m : StateMachine Two) (ms : Nat) (h : Int),
            (update d { fsm := m.wait ms, host := h }).fsm.waiting = false := by
  refine ⟨rfl, rfl, rfl, ?_⟩
  intro hall
  have h := hall twoStateFSM (fun _ _ => rfl) { currentState := some Two.s1 } 5 0
  exact absurd h (by decide)

/-- C13 (amended): with a `waitCondition` that always returns false (the
default one), no `update()` returns at step 1, and the `update()` that follows
`wait(ms)` invokes the same state, leaves the same host fields and leaves the
same `currentState`, `nextState` and `waiting` as the `update()` from the same
engine without the `wait(ms)` call.  After either update `waiting` is set
exactly when a behaviour was invoked and made a `wait` call. -/
theorem wait_inert_by_default (d : Derived σ H) (hd : ∀ h ms, d.waitCondition h ms = false)
    (m : StateMachine σ) (ms : Nat) (h : H) (inv : List σ) (ask : List Nat) :
    (∀ c : Instance σ H, frozen d c = false)
      ∧ (update d { fsm := m.wait ms, host := h, invoked := inv, asked := ask }).invoked
          = (update d { fsm := m, host := h, invoked := inv, asked := ask }).invoked
      ∧ (update d { fsm := m.wait ms, host := h, invoked := inv, asked := ask }).invoked
          = inv ++ (target m).toList
      ∧ (update d { fsm := m.wait ms, host := h, invoked := inv, asked := ask }).host
          = (update d { fsm := m, host := h, invoked := inv, asked := ask }).host
      ∧ (update d { fsm := m.wait ms, host := h, invoked := inv, asked := ask }
          ).fsm.currentState
          = (update d { fsm := m, host := h, invoked := inv, asked := ask }).fsm.currentState
      ∧ (update d { fsm := m.wait ms, host := h, invoked := inv, asked := ask }).fsm.nextState
          = (update d { fsm := m, host := h, invoked := inv, asked := ask }).fsm.nextState
      ∧ (update d { fsm := m.wait ms, host := h, invoked := inv, asked := ask }).fsm.waiting
          = (update d { fsm := m, host := h, invoked := inv, asked := ask }).fsm.waiting
      ∧ (update d { fsm := m.wait ms, host := h, invoked := inv, asked := ask }).fsm.waiting
          = match target m with
            | none => false
            | some s => (lastWait (d.method s h).2).isSome := by
  have hfz : ∀ c : Instance σ H, frozen d c = false := by
    intro c
    simp [frozen, hd]
  have h1 := update_of_not_frozen d
    { fsm := m.wait ms, host := h, invoked := inv, asked := ask } (hfz _)
  have h0 := update_of_not_frozen d
    { fsm := m, host := h, invoked := inv, asked := ask } (hfz _)
  have ht : target (m.wait ms) = target m := rfl
  simp only [ht] at h1
  rw [h1, h0]
  refine ⟨hfz, ?_⟩
  cases hs : target m with
  | none => simp [invokeCurrent]
  | some s =>
    refine ⟨rfl, ?_, rfl, ?_, ?_, ?_, ?_⟩
    · simp [invokeCurrent, invoke]
    · show (runCalls _ _).currentState = (runCalls _ _).currentState
      rw [runCalls_currentState_of_some _ _ s rfl, runCalls_currentState_of_some _ _ s rfl]
    · show (runCalls _ _).nextState = (runCalls _ _).nextState
      rw [runCalls_nextState, runCalls_nextState]
    · show (runCalls _ _).waiting = (runCalls _ _).waiting
      rw [(runCalls_waitTime _ _).2, (runCalls_waitTime _ _).2]
    · show (runCalls _ _).waiting = _
      rw [(runCalls_waitTime _ _).2]
      rfl

/-- C13 (amended) on the host of `test_rapid_fire`, whose behaviours call no
`wait`: the update after `wait(5)` invokes `s1` as without it and leaves
`waiting` false. -/
theorem wait_inert_by_default_witness :
    (update rapidFireFSM
        { fsm := ({ currentState := some Three.s1 } : StateMachine Three).wait 5, host := [],
          invoked := [], asked := [] }).invoked
        = (update rapidFireFSM
            { fsm := { currentState := some Three.s1 }, host := [], invoked := [],
              asked := [] }).invoked
      ∧ (update rapidFireFSM
          { fsm := ({ currentState := some Three.s1 } : StateMachine Three).wait 5, host := [],
            invoked := [], asked := [] }).fsm.waiting = false :=
  ⟨(wait_inert_by_default rapidFireFSM (fun _ _ => rfl) { currentState := some Three.s1 } 5 []
      [] []).2.1,
    (wait_inert_by_default rapidFireFSM (fun _ _ => rfl) { currentState := some Three.s1 } 5 []
      [] []).2.2.2.2.2.2.2⟩

/-! ## Independent instances -/

theorem invokeCurrent_mapHost {σ W HO : Type} (view : W → HO) (dW : Derived σ W)
    (dOwn : Derived σ HO) (hC : Confined view dW dOwn) (c : Instance σ W) :
    mapHost view (invokeCurrent dW c) = invokeCurrent dOwn (mapHost view c) := by
  unfold invokeCurrent
  cases hs : c.fsm.currentState with
  | none => simp [mapHost, hs]
  | some s =>
    simp only [mapHost, hs, invoke]
    rw [(hC.1 s c.host).1, (hC.1 s c.host).2]

/-- A host confined to its own part of the world is, seen through that part,
the host in isolation. -/
theorem update_mapHost {σ W HO : Type} (view : W → HO) (dW : Derived σ W) (dOwn : Derived σ HO)
    (hC : Confined view dW dOwn) (c : Instance σ W) :
    mapHost view (update dW c) = update dOwn (mapHost view c) := by
  have hf : frozen dOwn (mapHost view c) = frozen dW c := by
    simp [frozen, mapHost, hC.2]
  cases hfz : frozen dW c with
  | true =>
    rw [update_of_frozen dW c hfz, update_of_frozen dOwn _ (hf.trans hfz)]
    rfl
  | false =>
    rw [update_of_not_frozen dW c hfz, update_of_not_frozen dOwn _ (hf.trans hfz),
      invokeCurrent_mapHost view dW dOwn hC]
    rfl

/-- A host that leaves a part of the world alone in its behaviours leaves
it alone in `update()`. -/
theorem update_preserves {σ W HO : Type} (view : W → HO) (dW : Derived σ W)
    (hP : Preserves view dW) (c : Instance σ W) : view (update dW c).host = view c.host := by
  cases hfz : frozen dW c with
  | true => rw [update_of_frozen dW c hfz]
  | false =>
    rw [update_of_not_frozen dW c hfz]
    unfold invokeCurrent
    cases hs : target c.fsm with
    | none => rfl
    | some s => exact hP s c.host

theorem interleave_A {σA σB W HA : Type} (viewA : W → HA)
    (dA : Derived σA W) (dB : Derived σB W) (ownA : Derived σA HA)
    (hA : Confined viewA dA ownA) (hBA : Preserves viewA dB)
    (sched : List Bool) (p : Pair σA σB W) :
    ({ fsm := (interleave dA dB sched p).fsmA, host := viewA (interleave dA dB sched p).world,
       invoked := (interleave dA dB sched p).invokedA,
       asked := (interleave dA dB sched p).askedA } : Instance σA HA)
      = updateN ownA (sched.count true)
          { fsm := p.fsmA, host := viewA p.world, invoked := p.invokedA, asked := p.askedA } := by
  induction sched generalizing p with
  | nil => rfl
  | cons b bs ih =>
    cases b with
    | true =>
      rw [interleave, ih, List.count_cons_self, updateN]
      congr 1
      exact update_mapHost viewA dA ownA hA
        { fsm := p.fsmA, host := p.world, invoked := p.invokedA, asked := p.askedA }
    | false =>
      rw [interleave, ih, List.count_cons_of_ne (by decide)]
      congr 1
      have := update_preserves viewA dB hBA
        { fsm := p.fsmB, host := p.world, invoked := p.invokedB, asked := p.askedB }
      simp only [updateB]
      rw [this]

theorem interleave_B {σA σB W HB : Type} (viewB : W → HB)
    (dA : Derived σA W) (dB : Derived σB W) (ownB : Derived σB HB)
    (hB : Confined viewB dB ownB) (hAB : Preserves viewB dA)
    (sched : List Bool) (p : Pair σA σB W) :
    ({ fsm := (interleave dA dB sched p).fsmB, host := viewB (interleave dA dB sched p).world,
       invoked := (interleave dA dB sched p).invokedB,
       asked := (interleave dA dB sched p).askedB } : Instance σB HB)
      = updateN ownB (sched.count false)
          { fsm := p.fsmB, host := viewB p.world, invoked := p.invokedB, asked := p.askedB } := by
  induction sched generalizing p with
  | nil => rfl
  | cons b bs ih =>
    cases b with
    | false =>
      rw [interleave, ih, List.count_cons_self, updateN]
      congr 1
      exact update_mapHost viewB dB ownB hB
        { fsm := p.fsmB, host := p.world, invoked := p.invokedB, asked := p.askedB }
    | true =>
      rw [interleave, ih, List.count_cons_of_ne (by decide)]
      congr 1
      have := update_preserves viewB dA hAB
        { fsm := p.fsmA, host := p.world, invoked := p.invokedA, asked := p.askedA }
      simp only [updateA]
      rw [this]

/-- C12: two host objects whose behaviours and wait conditions read and write
only their own part of the world.  For every interleaving of `update()`
calls, the engine fields of `A`, its own host fields and the states invoked
on it are those of `A` polled alone the same number of times, and likewise
for `B`.  An `update()` on one object leaves the engine fields and the
invocation list of the other untouched (whatever the hosts do). -/
theorem interleaving_independent {σA σB W HA HB : Type} (viewA : W → HA) (viewB : W → HB)
    (dA : Derived σA W) (dB : Derived σB W) (ownA : Derived σA HA) (ownB : Derived σB HB)
    (hA : Confined viewA dA ownA) (hB : Confined viewB dB ownB)
    (hAB : Preserves viewB dA) (hBA : Preserves viewA dB)
    (sched : List Bool) (p : Pair σA σB W) :
    (interleave dA dB sched p).fsmA
        = (updateN ownA (sched.count true)
            { fsm := p.fsmA, host := viewA p.world, invoked := p.invokedA,
              asked := p.askedA }).fsm
      ∧ (interleave dA dB sched p).invokedA
        = (updateN ownA (sched.count true)
            { fsm := p.fsmA, host := viewA p.world, invoked := p.invokedA,
              asked := p.askedA }).invoked
      ∧ viewA (interleave dA dB sched p).world
        = (updateN ownA (sched.count true)
            { fsm := p.fsmA, host := viewA p.world, invoked := p.invokedA,
              asked := p.askedA }).host
      ∧ (interleave dA dB sched p).fsmB
        = (updateN ownB (sched.count false)
            { fsm := p.fsmB, host := viewB p.world, invoked := p.invokedB,
              asked := p.askedB }).fsm
      ∧ (interleave dA dB sched p).invokedB
        = (updateN ownB (sched.count false)
            { fsm := p.fsmB, host := viewB p.world, invoked := p.invokedB,
              asked := p.askedB }).invoked
      ∧ viewB (interleave dA dB sched p).world
        = (updateN ownB (sched.count false)
            { fsm := p.fsmB, host := viewB p.world, invoked := p.invokedB,
              asked := p.askedB }).host
      ∧ (updateA dA p).fsmB = p.fsmB ∧ (updateA dA p).invokedB = p.invokedB
      ∧ (updateB dB p).fsmA = p.fsmA ∧ (updateB dB p).invokedA = p.invokedA := by
  have h1 := interleave_A viewA dA dB ownA hA hBA sched p
  have h2 := interleave_B viewB dA dB ownB hB hAB sched p
  refine ⟨?_, ?_, ?_, ?_, ?_, ?_, rfl, rfl, rfl, rfl⟩
  · exact congrArg Instance.fsm h1
  · exact congrArg Instance.invoked h1
  · exact congrArg Instance.host h1
  · exact congrArg Instance.fsm h2
  · exact congrArg Instance.invoked h2
  · exact congrArg Instance.host h2

/-- C12 on `test_interleaving_default`, where the two hosts also share the
log `history`: polling `A, B, A, B, A, B, A, B` invokes `s1, s2, s1, s2` on
`A` and `s3, s4, s3, s4` on `B`, as four updates of each alone do, and the
shared log reads `13241324`. -/
theorem interleaving_independent_witness :
    (interleave interleavingFSM1 interleavingFSM2
        [true, false, true, false, true, false, true, false]
        { fsmA := { currentState := some Two.s1 }, fsmB := { currentState := some TwoB.s3 },
          world := [] }).invokedA
        = (updateN ownFSM1 4 { fsm := { currentState := some Two.s1 }, host := () }).invoked
      ∧ (updateN ownFSM1 4 { fsm := { currentState := some Two.s1 }, host := () }).invoked
        = [Two.s1, Two.s2, Two.s1, Two.s2]
      ∧ (interleave interleavingFSM1 interleavingFSM2
          [true, false, true, false, true, false, true, false]
          { fsmA := { currentState := some Two.s1 }, fsmB := { currentState := some TwoB.s3 },
            world := [] }).invokedB
        = [TwoB.s3, TwoB.s4, TwoB.s3, TwoB.s4]
      ∧ (interleave interleavingFSM1 interleavingFSM2
          [true, false, true, false, true, false, true, false]
          { fsmA := { currentState := some Two.s1 }, fsmB := { currentState := some TwoB.s3 },
            world := [] }).world
        = ['1', '3', '2', '4', '1', '3', '2', '4'] :=
  ⟨(interleaving_independent (fun _ => ()) (fun _ => ()) interleavingFSM1 interleavingFSM2
      ownFSM1 ownFSM2
      ⟨fun s _ => by cases s <;> exact ⟨rfl, rfl⟩, fun _ _ => rfl⟩
      ⟨fun s _ => by cases s <;> exact ⟨rfl, rfl⟩, fun _ _ => rfl⟩
      (fun _ _ => rfl) (fun _ _ => rfl)
      [true, false, true, false, true, false, true, false]
      { fsmA := { currentState := some Two.s1 }, fsmB := { currentState := some TwoB.s3 },
        world := [] }).2.1,
    rfl, rfl, rfl⟩

/-! ## Timing across the wrap of the clock -/

/-- When the clock has wrapped since `start` was taken, the signed
difference the host of `test_overflow` computes is the advance itself. -/
theorem overflow_waitCondition (s d : Nat) (log : List Char) (hs : s < 2 ^ 64)
    (hd : d < 2 ^ 63) (hw : 2 ^ 64 ≤ s + d) :
    overflowFSM.waitCondition { clk := (s + d) % 2 ^ 64, start := s, log := log } 10
      = decide (d < 10) := by
  have h1 : subSigned (toSigned ((s + d) % 2 ^ 64)) (toSigned s) = (d : Int) := by
    unfold subSigned toSigned
    split_ifs <;> omega
  have h2 : toSigned 10 = 10 := by decide
  show decide (subSigned (toSigned ((s + d) % 2 ^ 64)) (toSigned s) < toSigned 10) = _
  rw [h1, h2]
  simp

/-- C15: the host of `test_overflow` on a 64-bit clock.  For every reading
`s` and every advance `d` with `0 < d < 2^63` that wraps the clock
(`s + d ≥ 2^64`): the `update()` at time `s` invokes the state, which records
`start = s` and calls `transitionTo(self).wait(10)`; after the advance the
clock reads `s + d - 2^64`, and the next `update()` invokes the state again
if and only if `d ≥ 10` (otherwise it invokes nothing). -/
theorem overflow_wrap_safe (s d start0 : Nat) (hs : s < 2 ^ 64) (hd0 : 0 < d)
    (hd : d < 2 ^ 63) (hw : 2 ^ 64 ≤ s + d) :
    (update overflowFSM (started One.s1 { clk := s, start := start0, log := [] })).invoked
        = [One.s1]
      ∧ (update overflowFSM (started One.s1 { clk := s, start := start0, log := [] })).host
        = { clk := s, start := s, log := ['O'] }
      ∧ (TimedFields.advance d
          (update overflowFSM (started One.s1 { clk := s, start := start0, log := [] })).host).clk
        = s + d - 2 ^ 64
      ∧ ((update overflowFSM
            { update overflowFSM (started One.s1 { clk := s, start := start0, log := [] }) with
              host := TimedFields.advance d
                (update overflowFSM
                  (started One.s1 { clk := s, start := start0, log := [] })).host }).invoked
          = [One.s1, One.s1] ↔ 10 ≤ d)
      ∧ ((update overflowFSM
            { update overflowFSM (started One.s1 { clk := s, start := start0, log := [] }) with
              host := TimedFields.advance d
                (update overflowFSM
                  (started One.s1 { clk := s, start := start0, log := [] })).host }).invoked
          = [One.s1] ↔ d < 10)
      ∧ ((update overflowFSM
            { update overflowFSM (started One.s1 { clk := s, start := start0, log := [] }) with
              host := TimedFields.advance d
                (update overflowFSM
                  (started One.s1 { clk := s, start := start0, log := [] })).host }).host.log
          = ['O', 'O'] ↔ 10 ≤ d) := by
  have hwc := overflow_waitCondition s d ['O'] hs hd hw
  have hc1 : update overflowFSM (started One.s1 { clk := s, start := start0, log := [] })
      = { fsm := { currentState := some One.s1, nextState := some One.s1, waitTime := 10,
                   waiting := true }
          host := { clk := s, start := s, log := ['O'] }
          invoked := [One.s1], asked := [] } := rfl
  rw [hc1]
  refine ⟨rfl, rfl, ?_, ?_⟩
  · show (s + d) % 2 ^ 64 = s + d - 2 ^ 64
    omega
  · by_cases h10 : d < 10
    · have hfz : frozen overflowFSM
          { fsm := { currentState := some One.s1, nextState := some One.s1, waitTime := 10,
                     waiting := true }
            host := TimedFields.advance d { clk := s, start := s, log := ['O'] }
            invoked := [One.s1], asked := [] } = true := by
        show (true && overflowFSM.waitCondition
          { clk := (s + d) % 2 ^ 64, start := s, log := ['O'] } 10) = true
        rw [hwc]
        simp [h10]
      rw [update_of_frozen overflowFSM _ hfz]
      simp [TimedFields.advance]
      omega
    · have hfz : frozen overflowFSM
          { fsm := { currentState := some One.s1, nextState := some One.s1, waitTime := 10,
                     waiting := true }
            host := TimedFields.advance d { clk := s, start := s, log := ['O'] }
            invoked := [One.s1], asked := [] } = false := by
        show (true && overflowFSM.waitCondition
          { clk := (s + d) % 2 ^ 64, start := s, log := ['O'] } 10) = false
        rw [hwc]
        simp [h10]
      rw [update_of_not_frozen overflowFSM _ hfz]
      simp [TimedFields.advance, target, invokeCurrent, invoke, overflowFSM]
      omega

/-- C15 at the values of `test_overflow`: start `2^64 - 6`, advance 20, two
invocations. -/
theorem overflow_wrap_safe_witness :
    (update overflowFSM
        { update overflowFSM
            (started One.s1 { clk := 2 ^ 64 - 6, start := 0, log := [] }) with
          host := TimedFields.advance 20
            (update overflowFSM
              (started One.s1 { clk := 2 ^ 64 - 6, start := 0, log := [] })).host }).invoked
      = [One.s1, One.s1] :=
  ((overflow_wrap_safe (2 ^ 64 - 6) 20 0 (by norm_num) (by norm_num) (by norm_num)
      (by norm_num)).2.2.2.1).mpr (by norm_num)

/-! ## Periodic hosts -/

theorem Spaced_append {T : Nat} (l : List Nat) (x : Nat) (hl : Spaced T l)
    (hx : ∀ y, l.getLast? = some y → y + T ≤ x) : Spaced T (l ++ [x]) := by
  induction l with
  | nil => trivial
  | cons a l ih =>
    cases l with
    | nil =>
      exact ⟨hx a rfl, trivial⟩
    | cons b l =>
      refine ⟨hl.1, ?_⟩
      exact ih hl.2 (fun y hy => hx y (by simpa [List.getLast?_cons_cons] using hy))

/-- The first `update()` of a periodic host runs the initial state. -/
theorem periodic_update_started {σ : Type} (next : σ → σ) (T : Nat) (s : σ) (h : Timer) :
    update (periodicFSM next T) (started s h)
      = { fsm := cycling next T s
          host := { h with t0 := h.clk, count := h.count + 1, stamps := h.stamps ++ [h.clk] }
          invoked := [s], asked := [] } := rfl

/-- A later `update()` of a periodic host does nothing while less than `T`
has elapsed since `t0`, and otherwise runs the next state. -/
theorem periodic_update_cycling {σ : Type} (next : σ → σ) (T : Nat) (s : σ) (h : Timer)
    (inv : List σ) (ask : List Nat) :
    update (periodicFSM next T)
        { fsm := cycling next T s, host := h, invoked := inv, asked := ask }
      = if h.elapsed < T then
          { fsm := cycling next T s, host := h, invoked := inv, asked := ask ++ [T] }
        else
          { fsm := cycling next T (next s)
            host := { h with t0 := h.clk, count := h.count + 1, stamps := h.stamps ++ [h.clk] }
            invoked := inv ++ [next s], asked := ask ++ [T] } := by
  by_cases he : h.elapsed < T
  · simp [update, cycling, periodicFSM, he]
  · simp [update, cycling, periodicFSM, he, applyPending, invokeCurrent, invoke, runCalls,
      Call.run, StateMachine.transitionTo, StateMachine.wait]

/-- A polling loop of a periodic host, after its first invocation, on a clock
that does not wrap: the invariants behind the timing claims.  The clock is
advanced by the increments `ds`, with one `update()` after each advance. -/
theorem periodic_pollAll {σ : Type} (next : σ → σ) (T J : Nat) (ds : List Nat) :
    ∀ (s : σ) (h : Timer) (inv : List σ) (ask : List Nat),
      h.t0 ≤ h.clk → h.clk + ds.sum < 2 ^ 64 → Spaced T h.stamps →
      h.stamps.getLast? = some h.t0 →
      ∃ (s1 : σ) (h1 : Timer) (inv1 : List σ) (ask1 : List Nat),
        pollAll (periodicFSM next T) (ds.map Timer.advance)
            { fsm := cycling next T s, host := h, invoked := inv, asked := ask }
          = { fsm := cycling next T s1, host := h1, invoked := inv1, asked := ask1 }
        ∧ h1.clk = h.clk + ds.sum ∧ h1.t0 ≤ h1.clk ∧ h.t0 ≤ h1.t0
        ∧ Spaced T h1.stamps ∧ h1.stamps.getLast? = some h1.t0
        ∧ h1.stamps.head? = h.stamps.head?
        ∧ h.stamps.length ≤ h1.stamps.length
        ∧ h1.count + h.stamps.length = h.count + h1.stamps.length
        ∧ inv1.length + h.stamps.length = inv.length + h1.stamps.length
        ∧ h1.stamps.length * T + h.t0 ≤ h1.t0 + h.stamps.length * T
        ∧ (0 < T → (∀ d ∈ ds, d ≤ J) → h.clk < h.t0 + T →
            h1.clk < h1.t0 + T ∧ h1.t0 + h.count * (T + J) ≤ h.t0 + h1.count * (T + J)) := by
  induction ds with
  | nil =>
    intro s h inv ask h0 _ hsp hlast
    exact ⟨s, h, inv, ask, rfl, by simp, h0, le_refl _, hsp, hlast, rfl, le_refl _, rfl, rfl,
      by omega, fun _ _ hlt => ⟨hlt, le_refl _⟩⟩
  | cons d rest ih =>
    intro s h inv ask h0 hsum hsp hlast
    rw [List.sum_cons] at hsum
    have hstep : pollAll (periodicFSM next T) ((d :: rest).map Timer.advance)
          { fsm := cycling next T s, host := h, invoked := inv, asked := ask }
        = pollAll (periodicFSM next T) (rest.map Timer.advance)
            (update (periodicFSM next T)
              { fsm := cycling next T s, host := Timer.advance d h, invoked := inv,
                asked := ask }) := rfl
    have hclk : (Timer.advance d h).clk = h.clk + d := by
      show (h.clk + d) % 2 ^ 64 = h.clk + d
      omega
    have hel : (Timer.advance d h).elapsed = h.clk + d - h.t0 := by
      show ((h.clk + d) % 2 ^ 64 + 2 ^ 64 - h.t0) % 2 ^ 64 = h.clk + d - h.t0
      omega
    rw [hstep, periodic_update_cycling, hel]
    by_cases he : h.clk + d - h.t0 < T
    · rw [if_pos he]
      obtain ⟨s1, h1, inv1, ask1, hrun, c1, c2, c3, c4, c5, c6, c7, c8, c9, c10, c11⟩ :=
        ih s (Timer.advance d h) inv (ask ++ [T]) (by rw [hclk]; exact Nat.le_add_right_of_le h0)
          (by rw [hclk]; omega) hsp hlast
      refine ⟨s1, h1, inv1, ask1, hrun, ?_, c2, c3, c4, c5, c6, c7, c8, c9, c10, ?_⟩
      · rw [c1, hclk, List.sum_cons]; omega
      · intro hT hJ _
        have hlt : (Timer.advance d h).clk < (Timer.advance d h).t0 + T := by
          rw [hclk]
          show h.clk + d < h.t0 + T
          omega
        exact c11 hT (fun x hx => hJ x (List.mem_cons_of_mem _ hx)) hlt
    · rw [if_neg he]
      have hne : h.stamps ≠ [] := by
        intro hnil
        rw [hnil] at hlast
        cases hlast
      obtain ⟨s1, h1, inv1, ask1, hrun, c1, c2, c3, c4, c5, c6, c7, c8, c9, c10, c11⟩ :=
        ih (next s)
          { Timer.advance d h with
            t0 := (Timer.advance d h).clk, count := (Timer.advance d h).count + 1
            stamps := (Timer.advance d h).stamps ++ [(Timer.advance d h).clk] }
          (inv ++ [next s]) (ask ++ [T]) (le_refl _)
          (by show (Timer.advance d h).clk + rest.sum < 2 ^ 64
              rw [hclk]; omega)
          (Spaced_append _ _ hsp (fun y hy => by
            have hy2 : h.stamps.getLast? = some y := hy
            rw [hlast] at hy2
            cases hy2
            rw [hclk]
            omega))
          (by simp)
      have e1 : (Timer.advance d h).clk = h.clk + d := hclk
      have e2 : (Timer.advance d h).stamps = h.stamps := rfl
      have e3 : (Timer.advance d h).count = h.count := rfl
      simp only [e1, e2, e3, List.length_append, List.length_singleton] at c1 c3 c6 c7 c8 c9 c10 c11
      refine ⟨s1, h1, inv1, ask1, hrun, ?_, c2, by omega, c4, c5, ?_, by omega, by omega,
        by omega, ?_, ?_⟩
      · rw [c1, List.sum_cons]; omega
      · rw [c6, List.head?_append_of_ne_nil _ hne]
      · rw [Nat.add_mul, Nat.one_mul] at c10
        omega
      · intro hT hJ hlt
        have hd : d ≤ J := hJ d (List.mem_cons_self _ _)
        obtain ⟨g1, g2⟩ := c11 hT (fun x hx => hJ x (List.mem_cons_of_mem _ hx)) (by omega)
        refine ⟨g1, ?_⟩
        rw [Nat.add_mul, Nat.one_mul] at g2
        omega

/-- The polling loop of a periodic host from its construction: the first
`update()` runs the initial state at the first reading. -/
theorem periodic_pollAll_started {σ : Type} (next : σ → σ) (T : Nat) (s0 : σ) (h : Timer)
    (d : Nat) (rest : List Nat) :
    pollAll (periodicFSM next T) ((d :: rest).map Timer.advance) (started s0 h)
      = pollAll (periodicFSM next T) (rest.map Timer.advance)
          { fsm := cycling next T s0
            host := { Timer.advance d h with
                      t0 := (Timer.advance d h).clk, count := (Timer.advance d h).count + 1
                      stamps := (Timer.advance d h).stamps ++ [(Timer.advance d h).clk] }
            invoked := [s0], asked := [] } := rfl

/-- C18: never early.  A host whose every behaviour keeps the clock reading
and calls `transitionTo(next).wait(T)`, with wait condition
`(now - t0) < ms`, on a clock that starts at `t`, is advanced by the
increments `ds` (zero allowed: several updates at one reading) and does not
wrap; one `update()` after each advance.  The readings at consecutive
invocations are at least `T` apart, the number of invocations is the number
of readings taken, and with `first` the reading at the first invocation and
`E` the time elapsed since, `count * T ≤ E + T`: for `T > 0` the count is at
most `1 + E / T`. -/
theorem never_early {σ : Type} (next : σ → σ) (T : Nat) (s0 : σ) (t start0 : Nat)
    (ds : List Nat) (hE : t + ds.sum < 2 ^ 64) :
    Spaced T (pollAll (periodicFSM next T) (ds.map Timer.advance)
          (started s0 { clk := t, t0 := start0 })).host.stamps
      ∧ (pollAll (periodicFSM next T) (ds.map Timer.advance)
          (started s0 { clk := t, t0 := start0 })).invoked.length = (pollAll (periodicFSM next T) (ds.map Timer.advance)
          (started s0 { clk := t, t0 := start0 })).host.stamps.length
      ∧ (pollAll (periodicFSM next T) (ds.map Timer.advance)
          (started s0 { clk := t, t0 := start0 })).host.count = (pollAll (periodicFSM next T) (ds.map Timer.advance)
          (started s0 { clk := t, t0 := start0 })).host.stamps.length
      ∧ (pollAll (periodicFSM next T) (ds.map Timer.advance)
          (started s0 { clk := t, t0 := start0 })).host.clk = t + ds.sum
      ∧ ∀ first, (pollAll (periodicFSM next T) (ds.map Timer.advance)
          (started s0 { clk := t, t0 := start0 })).host.stamps.head? = some first →
          first ≤ (pollAll (periodicFSM next T) (ds.map Timer.advance)
          (started s0 { clk := t, t0 := start0 })).host.clk
          ∧ (pollAll (periodicFSM next T) (ds.map Timer.advance)
          (started s0 { clk := t, t0 := start0 })).invoked.length * T ≤ (pollAll (periodicFSM next T) (ds.map Timer.advance)
          (started s0 { clk := t, t0 := start0 })).host.clk - first + T
          ∧ (0 < T → (pollAll (periodicFSM next T) (ds.map Timer.advance)
          (started s0 { clk := t, t0 := start0 })).invoked.length ≤ 1 + ((pollAll (periodicFSM next T) (ds.map Timer.advance)
          (started s0 { clk := t, t0 := start0 })).host.clk - first) / T) := by
  cases ds with
  | nil =>
    refine ⟨trivial, rfl, rfl, by simp [pollAll, started], ?_⟩
    intro first hf
    cases hf
  | cons d rest =>
    rw [List.sum_cons] at hE
    have hmod : (t + d) % 2 ^ 64 = t + d := by omega
    have hstart : pollAll (periodicFSM next T) ((d :: rest).map Timer.advance)
          (started s0 { clk := t, t0 := start0 })
        = pollAll (periodicFSM next T) (rest.map Timer.advance)
            { fsm := cycling next T s0
              host := { clk := t + d, t0 := t + d, count := 1, stamps := [t + d] }
              invoked := [s0], asked := [] } := by
      rw [periodic_pollAll_started]
      simp only [Timer.advance, hmod, List.nil_append, Nat.zero_add]
    rw [hstart]
    obtain ⟨s1, h1, inv1, ask1, hrun, c1, c2, c3, c4, c5, c6, c7, c8, c9, c10, _⟩ :=
      periodic_pollAll next T 0 rest s0
        { clk := t + d, t0 := t + d, count := 1, stamps := [t + d] }
        [s0] [] (le_refl _) (by show t + d + rest.sum < 2 ^ 64; omega) trivial rfl
    rw [hrun]
    dsimp only at c1 c2 c3 c6 c7 c8 c9 c10 ⊢
    simp only [List.length_singleton, List.head?_cons, Nat.one_mul] at c6 c7 c8 c9 c10
    have hlen : inv1.length = h1.stamps.length := by omega
    refine ⟨c4, hlen, by omega, ?_, ?_⟩
    · rw [c1, List.sum_cons]; omega
    · intro first hf
      rw [c6] at hf
      cases hf
      have hmul : inv1.length * T ≤ h1.clk - (t + d) + T := by
        rw [hlen]
        omega
      refine ⟨by omega, hmul, ?_⟩
      intro hT
      have h2 : (inv1.length - 1) * T ≤ h1.clk - (t + d) := by
        rw [Nat.sub_mul, Nat.one_mul]
        omega
      have h3 := (Nat.le_div_iff_mul_le hT).mpr h2
      omega

/-- C18 on a three-state cycle with interval 10 (`test_three_state`),
polled at readings 0, 4, 10, 10, 25: invocations at 0, 10 and 25. -/
theorem never_early_witness :
    Spaced 10 (pollAll (periodicFSM Three.next 10) ([0, 4, 6, 0, 15].map Timer.advance)
          (started Three.s1 { clk := 0, t0 := 0 })).host.stamps
      ∧ (pollAll (periodicFSM Three.next 10) ([0, 4, 6, 0, 15].map Timer.advance)
          (started Three.s1 { clk := 0, t0 := 0 })).host.stamps = [0, 10, 25] :=
  ⟨(never_early Three.next 10 Three.s1 0 0 [0, 4, 6, 0, 15] (by norm_num)).1, by decide⟩

/-! ## Cycles counted under jitter -/

/-- The single-state periodic host with interval `T > 0`, on a clock that
starts at 0 and is advanced by the increments `d1 :: rest`, each at most `J`,
of sum below `2^64`: bounds on the number of invocations. -/
theorem periodic_count_bounds (T J d1 : Nat) (rest : List Nat) (hT : 0 < T)
    (hJ : ∀ d ∈ d1 :: rest, d ≤ J) (hE : (d1 :: rest).sum < 2 ^ 64) :
    (pollAll (periodicFSM (fun _ => One.s1) T) ((d1 :: rest).map Timer.advance)
          (started One.s1 { clk := 0, t0 := 0 })).host.stamps.length = (pollAll (periodicFSM (fun _ => One.s1) T) ((d1 :: rest).map Timer.advance)
          (started One.s1 { clk := 0, t0 := 0 })).invoked.length
      ∧ (pollAll (periodicFSM (fun _ => One.s1) T) ((d1 :: rest).map Timer.advance)
          (started One.s1 { clk := 0, t0 := 0 })).host.clk = (d1 :: rest).sum
      ∧ 1 ≤ (pollAll (periodicFSM (fun _ => One.s1) T) ((d1 :: rest).map Timer.advance)
          (started One.s1 { clk := 0, t0 := 0 })).invoked.length
      ∧ (pollAll (periodicFSM (fun _ => One.s1) T) ((d1 :: rest).map Timer.advance)
          (started One.s1 { clk := 0, t0 := 0 })).invoked.length * T + d1 ≤ (d1 :: rest).sum + T
      ∧ (pollAll (periodicFSM (fun _ => One.s1) T) ((d1 :: rest).map Timer.advance)
          (started One.s1 { clk := 0, t0 := 0 })).invoked.length ≤ 1 + ((d1 :: rest).sum - d1) / T
      ∧ (d1 :: rest).sum < (pollAll (periodicFSM (fun _ => One.s1) T) ((d1 :: rest).map Timer.advance)
          (started One.s1 { clk := 0, t0 := 0 })).invoked.length * (T + J)
      ∧ (d1 :: rest).sum / (T + J) < (pollAll (periodicFSM (fun _ => One.s1) T) ((d1 :: rest).map Timer.advance)
          (started One.s1 { clk := 0, t0 := 0 })).invoked.length := by
  rw [List.sum_cons] at hE ⊢
  have hmod : d1 % 2 ^ 64 = d1 := by omega
  have hstart : pollAll (periodicFSM (fun _ => One.s1) T) ((d1 :: rest).map Timer.advance)
        (started One.s1 { clk := 0, t0 := 0 })
      = pollAll (periodicFSM (fun _ => One.s1) T) (rest.map Timer.advance)
          { fsm := cycling (fun _ => One.s1) T One.s1
            host := { clk := d1, t0 := d1, count := 1, stamps := [d1] }
            invoked := [One.s1], asked := [] } := by
    rw [periodic_pollAll_started]
    simp only [Timer.advance, hmod, List.nil_append, Nat.zero_add]
  rw [hstart]
  obtain ⟨sx, h1, inv1, ask1, hrun, c1, c2, c3, c4, c5, c6, c7, c8, c9, c10, c11⟩ :=
    periodic_pollAll (fun _ => One.s1) T J rest One.s1
      { clk := d1, t0 := d1, count := 1, stamps := [d1] }
      [One.s1] [] (le_refl _) (by show d1 + rest.sum < 2 ^ 64; omega) trivial rfl
  obtain ⟨g1, g2⟩ := c11 hT (fun d hd => hJ d (List.mem_cons_of_mem _ hd))
    (by show d1 < d1 + T; omega)
  have hd1 : d1 ≤ J := hJ d1 (List.mem_cons_self _ _)
  rw [hrun]
  dsimp only at c1 c2 c3 c6 c7 c8 c9 c10 g1 g2 ⊢
  simp only [List.length_singleton, Nat.one_mul] at c7 c8 c9 c10 g2
  have hcnt : h1.count = h1.stamps.length := by omega
  have hlen : h1.stamps.length = inv1.length := by omega
  rw [hcnt] at g2
  rw [hlen] at c10 g2
  have hup : inv1.length * T + d1 ≤ d1 + rest.sum + T := by omega
  have hlow : d1 + rest.sum < inv1.length * (T + J) := by omega
  refine ⟨hlen, c1, by omega, hup, ?_, hlow, ?_⟩
  · have h2 : (inv1.length - 1) * T ≤ d1 + rest.sum - d1 := by
      rw [Nat.sub_mul, Nat.one_mul]
      omega
    have h3 := (Nat.le_div_iff_mul_le hT).mpr h2
    omega
  · exact (Nat.div_lt_iff_lt_mul (by omega)).mpr hlow

theorem update_host_invariant (d : Derived σ H) (P : H → Prop)
    (hP : ∀ s h, P h → P (d.method s h).1) (c : Instance σ H) (hc : P c.host) :
    P (update d c).host := by
  cases hf : frozen d c with
  | true =>
    rw [update_of_frozen d c hf]
    exact hc
  | false =>
    rw [update_of_not_frozen d c hf]
    unfold invokeCurrent
    cases hs : target c.fsm with
    | none => exact hc
    | some s => exact hP s c.host hc

theorem pollAll_host_invariant (d : Derived σ H) (P : H → Prop)
    (hP : ∀ s h, P h → P (d.method s h).1) (envs : List (H → H))
    (henv : ∀ e ∈ envs, ∀ h, P h → P (e h)) (c : Instance σ H) (hc : P c.host) :
    P (pollAll d envs c).host := by
  induction envs generalizing c with
  | nil => exact hc
  | cons e es ih =>
    exact ih (fun e2 he2 => henv e2 (List.mem_cons_of_mem _ he2)) _
      (update_host_invariant d P hP _ (henv e (List.mem_cons_self _ _) c.host hc))

/-- Seen through `FuzzFields.timer`, the host of `test_fuzzing` is the
single-state periodic host. -/
theorem fuzzing_confined (T : Nat) :
    Confined FuzzFields.timer (fuzzingFSM T) (periodicFSM (fun _ => One.s1) T) := by
  refine ⟨fun s w => ⟨?_, rfl⟩, fun w ms => rfl⟩
  simp [FuzzFields.timer, fuzzingFSM, periodicFSM]

theorem fuzzing_pollAll_timer (T : Nat) (ds : List Nat) (c : Instance One FuzzFields) :
    mapHost FuzzFields.timer (pollAll (fuzzingFSM T) (ds.map FuzzFields.advance) c)
      = pollAll (periodicFSM (fun _ => One.s1) T) (ds.map Timer.advance)
          (mapHost FuzzFields.timer c) := by
  induction ds generalizing c with
  | nil => rfl
  | cons d ds ih =>
    show mapHost FuzzFields.timer (pollAll (fuzzingFSM T) (ds.map FuzzFields.advance)
      (update (fuzzingFSM T) { c with host := FuzzFields.advance d c.host })) = _
    rw [ih, update_mapHost FuzzFields.timer _ _ (fuzzing_confined T)]
    rfl

theorem wrapInt32_succ (n : Nat) : wrapInt32 (wrapInt32 (n : Int) + 1) = wrapInt32 ((n : Int) + 1) := by
  unfold wrapInt32
  omega

theorem wrapInt32_of_lt (n : Nat) (h : n < 2 ^ 31) : wrapInt32 (n : Int) = (n : Int) := by
  unfold wrapInt32
  omega

/-- The counter `toggles` is the number of runs of `run`, wrapped to 32
bits. -/
theorem fuzzing_toggles (T : Nat) (ds : List Nat) :
    (fuzzingRun T ds).host.toggles
      = wrapInt32 ((fuzzingRun T ds).host.stamps.length : Int) := by
  apply pollAll_host_invariant (fuzzingFSM T)
    (fun h => h.toggles = wrapInt32 (h.stamps.length : Int))
  · intro s h hh
    show wrapInt32 (h.toggles + 1) = wrapInt32 ((h.stamps ++ [h.clk]).length : Int)
    rw [hh, List.length_append, List.length_singleton, wrapInt32_succ]
    rfl
  · intro e he h hh
    obtain ⟨d, _, rfl⟩ := List.mem_map.mp he
    exact hh
  · rfl

/-- C11, as stated, fails.  The host of `test_fuzzing` (one state, interval
500, clock from 0, advance then `update()`): after the single increment 10 it
has counted one cycle, since the first `update()` runs the state at once,
while `10 / 500 = 0`.  With total 2000 the single increment 2000 gives one
cycle, five increments of 400 give three (at 400, 1200 and 2000) and four
increments of 500 give four, while `2000 / 500 = 4`. -/
theorem cycles_floor_counterexample :
    (fuzzingRun 500 [10]).host.toggles = 1
      ∧ [10].sum / 500 = 0
      ∧ (fuzzingRun 500 [2000]).host.toggles = 1
      ∧ (fuzzingRun 500 [400, 400, 400, 400, 400]).host.toggles = 3
      ∧ (fuzzingRun 500 [400, 400, 400, 400, 400]).host.stamps = [400, 1200, 2000]
      ∧ [400, 400, 400, 400, 400].sum / 500 = 4
      ∧ ¬ ∀ (T : Nat) (ds : List Nat), 0 < T → (∀ d ∈ ds, 0 < d) →
          (fuzzingRun T ds).host.toggles = ((ds.sum / T : Nat) : Int) := by
  refine ⟨by decide, by decide, by decide, by decide, by decide, by decide, ?_⟩
  intro hall
  have h := hall 500 [10] (by decide) (by decide)
  exact absurd h (by decide)

/-- C11 (amended): the host of `test_fuzzing` with interval `T > 0`, on a
clock that starts at 0 and is advanced by the increments `d1 :: rest`, each
at most `J`, of sum `E < 2^64`, with one `update()` after each advance, and
with `1 + (E - d1) / T < 2^31` so that the `int` counter cannot overflow.  The
number of cycles counted, `toggles`, is the number of invocations; it is at
least 1, at most `1 + (E - d1) / T`, and more than `E / (T + J)`.  It is not
determined by `E` and `T` alone: for `T = 500` and `E = 2000` the increments
`[2000]` give 1 cycle, five increments of 400 give 3, and four increments of
500 give 4. -/
theorem cycles_bounds (T J d1 : Nat) (rest : List Nat) (hT : 0 < T)
    (hJ : ∀ d ∈ d1 :: rest, d ≤ J) (hE : (d1 :: rest).sum < 2 ^ 64)
    (hcap : 1 + ((d1 :: rest).sum - d1) / T < 2 ^ 31) :
    (fuzzingRun T (d1 :: rest)).host.toggles = ((fuzzingRun T (d1 :: rest)).invoked.length : Int)
      ∧ (fuzzingRun T (d1 :: rest)).host.clk = (d1 :: rest).sum
      ∧ 1 ≤ (fuzzingRun T (d1 :: rest)).host.toggles
      ∧ (fuzzingRun T (d1 :: rest)).host.toggles ≤ ((1 + ((d1 :: rest).sum - d1) / T : Nat) : Int)
      ∧ (((d1 :: rest).sum / (T + J) : Nat) : Int) < (fuzzingRun T (d1 :: rest)).host.toggles
      ∧ 1 ≤ (fuzzingRun T (d1 :: rest)).invoked.length
      ∧ (fuzzingRun T (d1 :: rest)).invoked.length * T + d1 ≤ (d1 :: rest).sum + T
      ∧ (fuzzingRun T (d1 :: rest)).invoked.length ≤ 1 + ((d1 :: rest).sum - d1) / T
      ∧ (d1 :: rest).sum < (fuzzingRun T (d1 :: rest)).invoked.length * (T + J)
      ∧ (d1 :: rest).sum / (T + J) < (fuzzingRun T (d1 :: rest)).invoked.length
      ∧ ([2000].sum = 2000 ∧ [400, 400, 400, 400, 400].sum = 2000
          ∧ [500, 500, 500, 500].sum = 2000
          ∧ (fuzzingRun 500 [2000]).host.toggles = 1
          ∧ (fuzzingRun 500 [400, 400, 400, 400, 400]).host.toggles = 3
          ∧ (fuzzingRun 500 [500, 500, 500, 500]).host.toggles = 4) := by
  have hmap := fuzzing_pollAll_timer T (d1 :: rest) (started One.s1 { clk := 0, last := 0 })
  have hinv : (fuzzingRun T (d1 :: rest)).invoked
      = (pollAll (periodicFSM (fun _ => One.s1) T) ((d1 :: rest).map Timer.advance)
          (started One.s1 { clk := 0, t0 := 0 })).invoked :=
    congrArg Instance.invoked hmap
  have hhost : FuzzFields.timer (fuzzingRun T (d1 :: rest)).host
      = (pollAll (periodicFSM (fun _ => One.s1) T) ((d1 :: rest).map Timer.advance)
          (started One.s1 { clk := 0, t0 := 0 })).host :=
    congrArg Instance.host hmap
  have hclk : (fuzzingRun T (d1 :: rest)).host.clk
      = (pollAll (periodicFSM (fun _ => One.s1) T) ((d1 :: rest).map Timer.advance)
          (started One.s1 { clk := 0, t0 := 0 })).host.clk :=
    congrArg Timer.clk hhost
  have hst : (fuzzingRun T (d1 :: rest)).host.stamps
      = (pollAll (periodicFSM (fun _ => One.s1) T) ((d1 :: rest).map Timer.advance)
          (started One.s1 { clk := 0, t0 := 0 })).host.stamps :=
    congrArg Timer.stamps hhost
  obtain ⟨p1, p2, p3, p4, p5, p6, p7⟩ := periodic_count_bounds T J d1 rest hT hJ hE
  rw [← hinv] at p1 p3 p4 p5 p6 p7
  rw [← hclk] at p2
  rw [← hst] at p1
  have htog : (fuzzingRun T (d1 :: rest)).host.toggles = ((fuzzingRun T (d1 :: rest)).invoked.length : Int) := by
    rw [fuzzing_toggles, p1]
    exact wrapInt32_of_lt _ (by omega)
  refine ⟨htog, p2, ?_, ?_, ?_, p3, p4, p5, p6, p7, ?_⟩
  · rw [htog]
    exact_mod_cast p3
  · rw [htog]
    exact_mod_cast p5
  · rw [htog]
    exact_mod_cast p7
  · exact ⟨by decide, by decide, by decide, by decide, by decide, by decide⟩

/-- C11 (amended) at interval 500 with increments 400, five times (each at
most 400): more than `2000 / 900` and at most `1 + 1600 / 500` cycles, here
three. -/
theorem cycles_bounds_witness :
    (fuzzingRun 500 (400 :: [400, 400, 400, 400])).host.toggles
        ≤ ((1 + ((400 :: [400, 400, 400, 400]).sum - 400) / 500 : Nat) : Int)
      ∧ (((400 :: [400, 400, 400, 400]).sum / (500 + 400) : Nat) : Int)
        < (fuzzingRun 500 (400 :: [400, 400, 400, 400])).host.toggles
      ∧ (fuzzingRun 500 (400 :: [400, 400, 400, 400])).host.toggles = 3 :=
  ⟨(cycles_bounds 500 400 400 [400, 400, 400, 400] (by norm_num) (by simp)
      (by norm_num) (by norm_num)).2.2.2.1,
    (cycles_bounds 500 400 400 [400, 400, 400, 400] (by norm_num) (by simp)
      (by norm_num) (by norm_num)).2.2.2.2.1,
    by decide⟩

/-! ## The blinker schedule -/

theorem updateThen_succ (d : Derived σ H) (after : H → H) (n : Nat) (c : Instance σ H) :
    updateThen d after (n + 1) c
      = { update d (updateThen d after n c) with
          host := after (update d (updateThen d after n c)).host } := by
  induction n generalizing c with
  | zero => rfl
  | succ n ih =>
    show updateThen d after (n + 1) _ = _
    rw [ih]
    rfl

/-- Rounding up: when `x + T = p * T + e` with `0 < e ≤ T`, the quotient
`(x + T - 1) / T` is `p`. -/
theorem ceil_div_of_eq (x T p e : Nat) (h : x + T = p * T + e) (h0 : 0 < e) (h1 : e ≤ T) :
    (x + T - 1) / T = p := by
  apply Nat.div_eq_of_lt_le
  · omega
  · rw [Nat.add_mul, Nat.one_mul]
    omega

/-- In a cycle of period `T` read in steps of `d`, where `d` divides `T`, a
phase below `T` is at most `T` after one more step. -/
theorem phase_step (T d e : Nat) (hdT : d ∣ T) (hde : d ∣ e) (he : e < T) : e + d ≤ T := by
  obtain ⟨m, hm⟩ := hdT
  obtain ⟨a, ha⟩ := hde
  subst hm ha
  have hlt : a < m := Nat.lt_of_mul_lt_mul_left he
  have := Nat.mul_le_mul_left d (Nat.succ_le_of_lt hlt)
  rw [Nat.mul_succ] at this
  exact this

/-- The blinker before its poll `k + 1`: it is waiting, and with `e` the time
elapsed on its 64-bit clock since the last invocation,
`(k + 1) * d + T = invocations * T + e` with `0 < e ≤ T`. -/
theorem blink_updateThen (T d : Nat) (hd : 0 < d) (hdT : d ∣ T) (hT0 : 0 < T)
    (hT : T < 2 ^ 64) (k : Nat) :
    ∃ (s : Two) (h : Timer) (inv : List Two) (ask : List Nat),
      updateThen (periodicFSM Two.other T) (Timer.advance d) (k + 1)
          (started Two.s1 { clk := 0, t0 := 0 })
        = { fsm := cycling Two.other T s, host := h, invoked := inv, asked := ask }
      ∧ h.clk < 2 ^ 64 ∧ h.t0 < 2 ^ 64 ∧ 0 < h.elapsed ∧ h.elapsed ≤ T ∧ d ∣ h.elapsed
      ∧ (k + 1) * d + T = inv.length * T + h.elapsed ∧ h.count = inv.length := by
  have hdle : d ≤ T := Nat.le_of_dvd hT0 hdT
  induction k with
  | zero =>
    have hz : ((0 + d) % 2 ^ 64 + 2 ^ 64 - 0) % 2 ^ 64 = d := by omega
    refine ⟨Two.s1, { clk := (0 + d) % 2 ^ 64, t0 := 0, count := 1, stamps := [0] }, [Two.s1],
      [], rfl, ?_, ?_, ?_, ?_, ?_, ?_, rfl⟩
    · show (0 + d) % 2 ^ 64 < 2 ^ 64
      omega
    · show 0 < 2 ^ 64
      omega
    · show 0 < ((0 + d) % 2 ^ 64 + 2 ^ 64 - 0) % 2 ^ 64
      omega
    · show ((0 + d) % 2 ^ 64 + 2 ^ 64 - 0) % 2 ^ 64 ≤ T
      omega
    · show d ∣ ((0 + d) % 2 ^ 64 + 2 ^ 64 - 0) % 2 ^ 64
      rw [hz]
    · show (0 + 1) * d + T = [Two.s1].length * T + ((0 + d) % 2 ^ 64 + 2 ^ 64 - 0) % 2 ^ 64
      rw [hz]
      simp
      omega
  | succ k ih =>
    obtain ⟨s, h, inv, ask, hrun, b1, b2, b3, b4, b5, b6, b7⟩ := ih
    rw [updateThen_succ, hrun, periodic_update_cycling]
    have hk : (k + 1 + 1) * d = (k + 1) * d + d := by
      rw [Nat.add_mul (k + 1) 1 d, Nat.one_mul]
    have hel : h.elapsed = (h.clk + 2 ^ 64 - h.t0) % 2 ^ 64 := rfl
    by_cases he : h.elapsed < T
    · rw [if_pos he]
      have hstep := phase_step T d h.elapsed hdT b5 he
      have hnew : (Timer.advance d h).elapsed = h.elapsed + d := by
        show ((h.clk + d) % 2 ^ 64 + 2 ^ 64 - h.t0) % 2 ^ 64 = h.elapsed + d
        omega
      refine ⟨s, Timer.advance d h, inv, ask ++ [T], rfl, ?_, b2, ?_, ?_, ?_, ?_, b7⟩
      · show (h.clk + d) % 2 ^ 64 < 2 ^ 64
        omega
      · rw [hnew]; omega
      · rw [hnew]; exact hstep
      · rw [hnew]; exact Nat.dvd_add b5 (Nat.dvd_refl d)
      · rw [hnew, hk]; omega
    · rw [if_neg he]
      have heq : h.elapsed = T := by omega
      have hnew : (Timer.advance d
          { h with t0 := h.clk, count := h.count + 1, stamps := h.stamps ++ [h.clk] }).elapsed
          = d := by
        show ((h.clk + d) % 2 ^ 64 + 2 ^ 64 - h.clk) % 2 ^ 64 = d
        omega
      refine ⟨Two.other s,
        Timer.advance d
          { h with t0 := h.clk, count := h.count + 1, stamps := h.stamps ++ [h.clk] },
        inv ++ [Two.other s], ask ++ [T], rfl, ?_, b1, ?_, ?_, ?_, ?_, ?_⟩
      · show (h.clk + d) % 2 ^ 64 < 2 ^ 64
        omega
      · rw [hnew]; exact hd
      · rw [hnew]; exact hdle
      · rw [hnew]
      · have hl : (inv ++ [Two.other s]).length = inv.length + 1 := by simp
        have hmul : (inv.length + 1) * T = inv.length * T + T := by
          rw [Nat.add_mul, Nat.one_mul]
        rw [hnew, hl, hmul, hk]
        omega
      · show h.count + 1 = (inv ++ [Two.other s]).length
        rw [List.length_append, List.length_singleton, b7]

/-- The reference loop of `test_three_blink` after `n + 1` steps, as long as
its counters do not wrap: `t = (n + 1) * d`, `nextX = pushes * T`, and
`(n + 1) * d + T = pushes * T + e` with `0 < e ≤ T`. -/
theorem reference_run (T d : Nat) (hd : 0 < d) (hdT : d ∣ T) (hT0 : 0 < T) (n : Nat)
    (hn : (n + 1) * d + T ≤ 2 ^ 64) :
    ∃ e, 0 < e ∧ e ≤ T ∧ d ∣ e
      ∧ (Reference.run T d (n + 1)).t = (n + 1) * d
      ∧ (Reference.run T d (n + 1)).nextX = (Reference.run T d (n + 1)).pushes * T
      ∧ (n + 1) * d + T = (Reference.run T d (n + 1)).pushes * T + e := by
  have hdle : d ≤ T := Nat.le_of_dvd hT0 hdT
  induction n with
  | zero =>
    simp only [Nat.zero_add, Nat.one_mul] at hn
    have h1 : Reference.run T d (0 + 1)
        = { t := (0 + d) % 2 ^ 64, nextX := (0 + T) % 2 ^ 64, pushes := 0 + 1 } := rfl
    rw [h1]
    refine ⟨d, hd, hdle, Nat.dvd_refl d, ?_, ?_, ?_⟩
    · show (0 + d) % 2 ^ 64 = (0 + 1) * d
      omega
    · show (0 + T) % 2 ^ 64 = (0 + 1) * T
      omega
    · show (0 + 1) * d + T = (0 + 1) * T + d
      omega
  | succ n ih =>
    have hk : (n + 1 + 1) * d = (n + 1) * d + d := by
      rw [Nat.add_mul (n + 1) 1 d, Nat.one_mul]
    rw [hk] at hn
    obtain ⟨e, e0, e1, e2, r1, r2, r3⟩ := ih (by omega)
    have hrun : Reference.run T d (n + 1 + 1) = (Reference.run T d (n + 1)).step T d := rfl
    rw [hrun]
    unfold Reference.step
    by_cases hp : (Reference.run T d (n + 1)).nextX ≤ (Reference.run T d (n + 1)).t
    · rw [if_pos hp]
      have hmul : ((Reference.run T d (n + 1)).pushes + 1) * T
          = (Reference.run T d (n + 1)).pushes * T + T := by
        rw [Nat.add_mul, Nat.one_mul]
      refine ⟨d, hd, hdle, Nat.dvd_refl d, ?_, ?_, ?_⟩
      · show ((Reference.run T d (n + 1)).t + d) % 2 ^ 64 = (n + 1 + 1) * d
        rw [hk, r1]
        omega
      · show ((Reference.run T d (n + 1)).nextX + T) % 2 ^ 64
          = ((Reference.run T d (n + 1)).pushes + 1) * T
        rw [hmul, r2]
        rw [r1, r2] at hp
        omega
      · show (n + 1 + 1) * d + T = ((Reference.run T d (n + 1)).pushes + 1) * T + d
        rw [hmul, hk]
        rw [r1, r2] at hp
        omega
    · rw [if_neg hp]
      rw [r1, r2] at hp
      have he : e < T := by omega
      have hstep := phase_step T d e hdT e2 he
      refine ⟨e + d, by omega, hstep, Nat.dvd_add e2 (Nat.dvd_refl d), ?_, ?_, ?_⟩
      · show ((Reference.run T d (n + 1)).t + d) % 2 ^ 64 = (n + 1 + 1) * d
        rw [hk, r1]
        omega
      · exact r2
      · show (n + 1 + 1) * d + T = (Reference.run T d (n + 1)).pushes * T + (e + d)
        rw [hk]
        omega

/-- C14, as stated, fails in its last part when the counters of the
reference loop wrap.  With interval `T = 2^63` and poll step `d = 2^62` (so
`T = 2 * d`), four polls reach the clock readings `0, 2^62, 2^63, 3 * 2^62`:
the blinker invokes at polls 0 and 2, two invocations, which is
`4 * d / T` rounded up; the reference loop pushes at `t = 0`, at `t = 2^63`,
where `nextX += T` wraps to 0, and again at `t = 3 * 2^62 ≥ 0`, three
pushes. -/
theorem blink_reference_counterexample :
    (updateThen (periodicFSM Two.other (2 ^ 63)) (Timer.advance (2 ^ 62)) 4
        (started Two.s1 { clk := 0, t0 := 0 })).invoked = [Two.s1, Two.s2]
      ∧ (4 * 2 ^ 62 + 2 ^ 63 - 1) / 2 ^ 63 = 2
      ∧ (Reference.run (2 ^ 63) (2 ^ 62) 3).nextX = 0
      ∧ (Reference.run (2 ^ 63) (2 ^ 62) 4).pushes = 3
      ∧ ¬ ∀ (T d m n : Nat), 0 < d → 0 < m → T = m * d → T < 2 ^ 64 →
          (Reference.run T d n).pushes
            = (updateThen (periodicFSM Two.other T) (Timer.advance d) n
                (started Two.s1 { clk := 0, t0 := 0 })).invoked.length := by
  refine ⟨by decide, by norm_num, by decide, by decide, ?_⟩
  intro hall
  have h := hall (2 ^ 63) (2 ^ 62) 2 4 (by norm_num) (by norm_num) (by norm_num) (by norm_num)
  exact absurd h (by decide)

/-- C14 (amended): the blinker of `test_three_blink` (two states, each logging,
keeping `t0 = now` and calling `transitionTo(other).wait(T)`) with poll step
`d > 0` and an interval `T = m * d`, `m > 0`, that fits the 64-bit clock;
the loop is `update()` then `clk.advance(d)`, from clock 0.  The `update()`
at poll `k` performs an invocation if and only if `T` divides `k * d`, also
across wraps of the clock; so `n` polls produce `(n * d + T - 1) / T`
invocations (`n * d / T` rounded up), and as many log entries.  The
reference loop of the test makes the same number of `push_back` calls as
long as its own counters do not wrap (`n * d + T ≤ 2^64`). -/
theorem blink_schedule (T d m : Nat) (hd : 0 < d) (hm : 0 < m) (hTm : T = m * d)
    (hT : T < 2 ^ 64) :
    (∀ k,
        (update (periodicFSM Two.other T)
            (updateThen (periodicFSM Two.other T) (Timer.advance d) k (started Two.s1 { clk := 0, t0 := 0 }))).invoked.length
          = (updateThen (periodicFSM Two.other T) (Timer.advance d) k (started Two.s1 { clk := 0, t0 := 0 })).invoked.length
            + (if T ∣ k * d then 1 else 0))
      ∧ (∀ n,
          (updateThen (periodicFSM Two.other T) (Timer.advance d) n (started Two.s1 { clk := 0, t0 := 0 })).invoked.length
            = (n * d + T - 1) / T)
      ∧ (∀ n,
          (updateThen (periodicFSM Two.other T) (Timer.advance d) n (started Two.s1 { clk := 0, t0 := 0 })).host.count
            = (n * d + T - 1) / T)
      ∧ ∀ n, n * d + T ≤ 2 ^ 64 →
          (Reference.run T d n).pushes
            = (updateThen (periodicFSM Two.other T) (Timer.advance d) n (started Two.s1 { clk := 0, t0 := 0 })).invoked.length := by
  have hdT : d ∣ T := ⟨m, by rw [hTm, Nat.mul_comm]⟩
  have hT0 : 0 < T := by rw [hTm]; exact Nat.mul_pos hm hd
  have hlen : ∀ n,
      (updateThen (periodicFSM Two.other T) (Timer.advance d) n (started Two.s1 { clk := 0, t0 := 0 })).invoked.length
        = (n * d + T - 1) / T
      ∧ (updateThen (periodicFSM Two.other T) (Timer.advance d) n (started Two.s1 { clk := 0, t0 := 0 })).host.count
        = (n * d + T - 1) / T := by
    intro n
    cases n with
    | zero =>
      have : (0 * d + T - 1) / T = 0 := Nat.div_eq_of_lt (by omega)
      rw [this]
      exact ⟨rfl, rfl⟩
    | succ k =>
      obtain ⟨s, h, inv, ask, hrun, _, _, b3, b4, _, b6, b7⟩ :=
        blink_updateThen T d hd hdT hT0 hT k
      rw [hrun, ceil_div_of_eq ((k + 1) * d) T inv.length h.elapsed b6 b3 b4]
      exact ⟨rfl, b7⟩
  refine ⟨?_, fun n => (hlen n).1, fun n => (hlen n).2, ?_⟩
  · intro k
    cases k with
    | zero =>
      have : T ∣ 0 * d := by simp
      rw [if_pos this]
      rfl
    | succ k =>
      obtain ⟨s, h, inv, ask, hrun, _, _, b3, b4, _, b6, _⟩ :=
        blink_updateThen T d hd hdT hT0 hT k
      rw [hrun, periodic_update_cycling]
      have hiff : T ∣ (k + 1) * d ↔ h.elapsed = T := by
        rw [← Nat.dvd_add_self_right, b6, Nat.dvd_add_right (Nat.dvd_mul_left T inv.length)]
        constructor
        · intro hdv
          have := Nat.le_of_dvd b3 hdv
          omega
        · intro heq
          rw [heq]
      by_cases he : h.elapsed < T
      · have hnd : ¬ T ∣ (k + 1) * d := by
          rw [hiff]
          omega
        rw [if_pos he, if_neg hnd]
        rfl
      · have hdv : T ∣ (k + 1) * d := by
          rw [hiff]
          omega
        rw [if_neg he, if_pos hdv]
        simp
  · intro n hn
    rw [(hlen n).1]
    cases n with
    | zero =>
      have : (0 * d + T - 1) / T = 0 := Nat.div_eq_of_lt (by omega)
      rw [this]
      rfl
    | succ k =>
      obtain ⟨e, e0, e1, _, _, _, r3⟩ := reference_run T d hd hdT hT0 k hn
      rw [ceil_div_of_eq ((k + 1) * d) T _ e r3 e0 e1]

/-- C14 at the values of blinker `A` in `test_three_blink`: interval 300,
step 100, 20 polls, seven invocations (at 0, 300, ..., 1800). -/
theorem blink_schedule_witness :
    (updateThen (periodicFSM Two.other 300) (Timer.advance 100) 20 (started Two.s1 { clk := 0, t0 := 0 })).invoked.length
        = (20 * 100 + 300 - 1) / 300
      ∧ (20 * 100 + 300 - 1) / 300 = 7
      ∧ (Reference.run 300 100 20).pushes = 7 :=
  ⟨(blink_schedule 300 100 3 (by norm_num) (by norm_num) (by norm_num) (by norm_num)).2.1 20,
    by norm_num, by decide⟩

end zeroflow
